import Mathlib

/-!
# OERC-S kernel: canonicalization and verification, embedded in Lean

A shallow embedding of the OERC-S kernel's canonical JSON encoding
(`kernel/src/canonical.ts`), object-id hashing (`kernel/src/crypto.ts`) and
object verification (`kernel/src/verify.ts`), together with proofs about the
specification's claims.

JavaScript values flowing through `toCanonical` are modelled by the inductive
type `Json` below.  Numbers are modelled as integers: the specification
disallows floating point in canonical form (all magnitudes are fixed-point
integers), and all protocol objects carry integer quantities.  The external
cryptographic primitives (BLAKE3, Ed25519) have no source in this repository:
they are modelled as parameters (`CryptoModel`), so every theorem quantifies
over them and counterexamples instantiate them with concrete functions.
-/

namespace OERCS

/-- A JavaScript value as seen by `JSON.stringify` with the kernel's
`sortedReplacer`: `undefined`, `null`, booleans, (integer) numbers, strings,
arrays and plain objects (a list of key/value properties in insertion order). -/
inductive Json where
  | undefined
  | null
  | bool (b : Bool)
  | num (n : Int)
  | str (s : String)
  | arr (elems : List Json)
  | obj (fields : List (String × Json))
deriving Inhabited

namespace Json

/-- Decidable structural equality on `Json`. -/
def beq : Json → Json → Bool
  | .undefined, .undefined => true
  | .null, .null => true
  | .bool a, .bool b => a == b
  | .num a, .num b => a == b
  | .str a, .str b => a == b
  | .arr xs, .arr ys => beqList xs ys
  | .obj fs, .obj gs => beqFields fs gs
  | _, _ => false
where
  beqList : List Json → List Json → Bool
    | [], [] => true
    | x :: xs, y :: ys => beq x y && beqList xs ys
    | _, _ => false
  beqFields : List (String × Json) → List (String × Json) → Bool
    | [], [] => true
    | (k, v) :: fs, (l, w) :: gs => k == l && beq v w && beqFields fs gs
    | _, _ => false

mutual

theorem beq_refl : (j : Json) → beq j j = true
  | .undefined => rfl
  | .null => rfl
  | .bool b => by simp [beq]
  | .num n => by simp [beq]
  | .str s => by simp [beq]
  | .arr xs => by simp only [beq]; exact beqList_refl xs
  | .obj fs => by simp only [beq]; exact beqFields_refl fs

theorem beqList_refl : (xs : List Json) → beq.beqList xs xs = true
  | [] => rfl
  | x :: xs => by simp [beq.beqList, beq_refl x, beqList_refl xs]

theorem beqFields_refl : (fs : List (String × Json)) → beq.beqFields fs fs = true
  | [] => rfl
  | (k, v) :: fs => by simp [beq.beqFields, beq_refl v, beqFields_refl fs]

end

mutual

theorem eq_of_beq : (a b : Json) → beq a b = true → a = b
  | .undefined, .undefined, _ => rfl
  | .null, .null, _ => rfl
  | .bool _, .bool _, h => by simpa [beq] using h
  | .num _, .num _, h => by simpa [beq] using h
  | .str _, .str _, h => by simpa [beq] using h
  | .arr xs, .arr ys, h => by
      simp only [beq] at h
      exact congrArg Json.arr (eqList_of_beq xs ys h)
  | .obj fs, .obj gs, h => by
      simp only [beq] at h
      exact congrArg Json.obj (eqFields_of_beq fs gs h)
  | .undefined, .null, h => by simp [beq] at h
  | .undefined, .bool _, h => by simp [beq] at h
  | .undefined, .num _, h => by simp [beq] at h
  | .undefined, .str _, h => by simp [beq] at h
  | .undefined, .arr _, h => by simp [beq] at h
  | .undefined, .obj _, h => by simp [beq] at h
  | .null, .undefined, h => by simp [beq] at h
  | .null, .bool _, h => by simp [beq] at h
  | .null, .num _, h => by simp [beq] at h
  | .null, .str _, h => by simp [beq] at h
  | .null, .arr _, h => by simp [beq] at h
  | .null, .obj _, h => by simp [beq] at h
  | .bool _, .undefined, h => by simp [beq] at h
  | .bool _, .null, h => by simp [beq] at h
  | .bool _, .num _, h => by simp [beq] at h
  | .bool _, .str _, h => by simp [beq] at h
  | .bool _, .arr _, h => by simp [beq] at h
  | .bool _, .obj _, h => by simp [beq] at h
  | .num _, .undefined, h => by simp [beq] at h
  | .num _, .null, h => by simp [beq] at h
  | .num _, .bool _, h => by simp [beq] at h
  | .num _, .str _, h => by simp [beq] at h
  | .num _, .arr _, h => by simp [beq] at h
  | .num _, .obj _, h => by simp [beq] at h
  | .str _, .undefined, h => by simp [beq] at h
  | .str _, .null, h => by simp [beq] at h
  | .str _, .bool _, h => by simp [beq] at h
  | .str _, .num _, h => by simp [beq] at h
  | .str _, .arr _, h => by simp [beq] at h
  | .str _, .obj _, h => by simp [beq] at h
  | .arr _, .undefined, h => by simp [beq] at h
  | .arr _, .null, h => by simp [beq] at h
  | .arr _, .bool _, h => by simp [beq] at h
  | .arr _, .num _, h => by simp [beq] at h
  | .arr _, .str _, h => by simp [beq] at h
  | .arr _, .obj _, h => by simp [beq] at h
  | .obj _, .undefined, h => by simp [beq] at h
  | .obj _, .null, h => by simp [beq] at h
  | .obj _, .bool _, h => by simp [beq] at h
  | .obj _, .num _, h => by simp [beq] at h
  | .obj _, .str _, h => by simp [beq] at h
  | .obj _, .arr _, h => by simp [beq] at h

theorem eqList_of_beq : (xs ys : List Json) → beq.beqList xs ys = true → xs = ys
  | [], [], _ => rfl
  | [], _ :: _, h => by simp [beq.beqList] at h
  | _ :: _, [], h => by simp [beq.beqList] at h
  | x :: xs, y :: ys, h => by
      simp only [beq.beqList, Bool.and_eq_true] at h
      exact congrArg₂ (· :: ·) (eq_of_beq x y h.1) (eqList_of_beq xs ys h.2)

theorem eqFields_of_beq :
    (fs gs : List (String × Json)) → beq.beqFields fs gs = true → fs = gs
  | [], [], _ => rfl
  | [], _ :: _, h => by simp [beq.beqFields] at h
  | _ :: _, [], h => by simp [beq.beqFields] at h
  | (k, v) :: fs, (l, w) :: gs, h => by
      simp only [beq.beqFields, Bool.and_eq_true] at h
      obtain ⟨⟨hk, hv⟩, hrest⟩ := h
      have hkl : k = l := by simpa using hk
      exact congrArg₂ (· :: ·) (by rw [hkl, eq_of_beq v w hv])
        (eqFields_of_beq fs gs hrest)

end

instance : DecidableEq Json := fun a b =>
  if h : beq a b = true then .isTrue (eq_of_beq a b h)
  else .isFalse (fun he => h (he ▸ beq_refl a))

/-- JavaScript truthiness of a value (`NaN` does not arise: numbers are
integers in the model). -/
def truthy : Json → Bool
  | .undefined => false
  | .null => false
  | .bool b => b
  | .num n => n != 0
  | .str s => s != ""
  | .arr _ => true
  | .obj _ => true

/-- JavaScript property read `j[k]`: a present property of an object, and
`undefined` otherwise (property access on a primitive yields `undefined`;
the verifiers only dereference values they have already checked truthy, so
the `null`/`undefined` TypeError cases never reach this helper unguarded). -/
def get (j : Json) (k : String) : Json :=
  match j with
  | .obj fields =>
      match fields.find? (fun kv => kv.1 == k) with
      | some kv => kv.2
      | none => .undefined
  | _ => .undefined

/-- JavaScript string coercion as used in template literals
(`${value}` inside the verifier's error messages). -/
def display : Json → String
  | .undefined => "undefined"
  | .null => "null"
  | .bool b => cond b "true" "false"
  | .num n => toString n
  | .str s => s
  | .arr xs => String.intercalate "," (displayList xs)
  | .obj _ => "[object Object]"
where
  displayList : List Json → List String
    | [] => []
    | x :: xs =>
        (match x with
         | .undefined => ""
         | .null => ""
         | v => display v) :: displayList xs

end Json

/-! ## UTF-16 code units and the JavaScript string order

`Array.prototype.sort()` with no comparator compares strings by UTF-16 code
units (ECMA-262 abstract relational comparison).  Lean's `Char` is a Unicode
scalar value, so surrogate code points never occur on their own. -/

/-- The UTF-16 code units of one character. -/
def charUtf16 (c : Char) : List Nat :=
  if c.toNat < 0x10000 then [c.toNat]
  else [0xD800 + (c.toNat - 0x10000) / 0x400, 0xDC00 + (c.toNat - 0x10000) % 0x400]

/-- The UTF-16 code units of a string. -/
def utf16Units (s : String) : List Nat :=
  s.data.flatMap charUtf16

/-- Strict lexicographic order on lists of naturals. -/
def lexLt : List Nat → List Nat → Bool
  | _, [] => false
  | [], _ :: _ => true
  | a :: as, b :: bs => a < b || (a == b && lexLt as bs)

/-- JavaScript `a < b` on strings: lexicographic on UTF-16 code units. -/
def jsLt (a b : String) : Bool := lexLt (utf16Units a) (utf16Units b)

/-- JavaScript `a <= b` on strings (total preorder used by the default sort). -/
def jsLe (a b : String) : Bool := !jsLt b a

/-! ## The canonical encoder (`kernel/src/canonical.ts`)

`toCanonical(obj) = JSON.stringify(obj, sortedReplacer)` where
`sortedReplacer` returns primitives and arrays unchanged and rebuilds every
object with its keys sorted (dropping `undefined`-valued properties).
`JSON.stringify` applies the replacer to every node top-down, so the composite
behaviour is: recursively sort every object's fields by the JavaScript string
order of their keys, drop `undefined` properties, then serialize without
whitespace.  The two phases are `sortJson` and `stringify` below. -/

/-- Field order produced by `Object.keys(value).sort()`: sorted by the
JavaScript string order of the keys (insertion sort is used here; any correct
sort yields the same list on the duplicate-free key sets of JS objects). -/
def sortFields (fields : List (String × Json)) : List (String × Json) :=
  List.insertionSort (fun p q => jsLe p.1 q.1 = true) fields

mutual

/-- The recursive-sorting phase of `toCanonical`: every object's
`undefined`-valued properties are dropped and its remaining fields are sorted
by key, at every nesting level. -/
def sortJson : Json → Json
  | .undefined => .undefined
  | .null => .null
  | .bool b => .bool b
  | .num n => .num n
  | .str s => .str s
  | .arr xs => .arr (sortJsonList xs)
  | .obj fs => .obj (sortFields (sortJsonFields fs))

def sortJsonList : List Json → List Json
  | [] => []
  | x :: xs => sortJson x :: sortJsonList xs

def sortJsonFields : List (String × Json) → List (String × Json)
  | [] => []
  | (k, v) :: fs =>
      if v = .undefined then sortJsonFields fs
      else (k, sortJson v) :: sortJsonFields fs

end

/-- One lowercase hexadecimal digit. -/
def hexDigit (n : Nat) : Char :=
  if n < 10 then Char.ofNat (48 + n) else Char.ofNat (87 + n)

/-- Four lowercase hexadecimal digits, as in `JSON.stringify`'s `\uXXXX`. -/
def hex4 (n : Nat) : String :=
  String.mk [hexDigit (n / 4096 % 16), hexDigit (n / 256 % 16),
             hexDigit (n / 16 % 16), hexDigit (n % 16)]

/-- `JSON.stringify`'s escaping of one character inside a quoted string. -/
def escapeChar (c : Char) : String :=
  if c = '"' then "\\\""
  else if c = '\\' then "\\\\"
  else if c = Char.ofNat 8 then "\\b"
  else if c = Char.ofNat 9 then "\\t"
  else if c = Char.ofNat 10 then "\\n"
  else if c = Char.ofNat 12 then "\\f"
  else if c = Char.ofNat 13 then "\\r"
  else if c.toNat < 0x20 then "\\u" ++ hex4 c.toNat
  else String.singleton c

/-- A JSON quoted string. -/
def quoteStr (s : String) : String :=
  "\"" ++ String.join (s.data.map escapeChar) ++ "\""

mutual

/-- The serialization phase of `JSON.stringify` (compact form, no
whitespace).  `none` is the JavaScript `undefined` result. -/
def stringify : Json → Option String
  | .undefined => none
  | .null => some "null"
  | .bool b => some (cond b "true" "false")
  | .num n => some (toString n)
  | .str s => some (quoteStr s)
  | .arr xs => some ("[" ++ String.intercalate "," (stringifyArr xs) ++ "]")
  | .obj fs => some ("\x7b" ++ String.intercalate "," (stringifyFields fs) ++ "\x7d")

/-- Array elements: an element serializing to `undefined` becomes `null`. -/
def stringifyArr : List Json → List String
  | [] => []
  | x :: xs =>
      (match stringify x with
       | some s => s
       | none => "null") :: stringifyArr xs

/-- Object members: a member serializing to `undefined` is skipped. -/
def stringifyFields : List (String × Json) → List String
  | [] => []
  | (k, v) :: fs =>
      match stringify v with
      | some s => (quoteStr k ++ ":" ++ s) :: stringifyFields fs
      | none => stringifyFields fs

end

/-! ### JavaScript property-enumeration order

`JSON.stringify` serializes an object's members in the order of
`EnumerableOwnPropertyNames`, which for ordinary objects is ECMA-262
`OrdinaryOwnPropertyKeys`: keys that are array indices (the canonical decimal
string of an integer below `2^32 - 1`) first, in ascending numeric order,
followed by the remaining string keys in property-insertion order.  The
`sortedReplacer` rebuilds every object by inserting its keys in sorted order,
so the emitted order at each level is: array-index keys ascending
numerically, then the other keys in the JavaScript string sort order. -/

/-- The numeric value of a digit string. -/
def digitsVal (cs : List Char) : Nat :=
  cs.foldl (fun a c => a * 10 + (c.toNat - 48)) 0

/-- `some n` when the string is a canonical array index (ECMA-262): the
decimal representation of `n < 2^32 - 1` with no leading zeros. -/
def arrayIndexVal (s : String) : Option Nat :=
  match s.data with
  | [] => none
  | c :: cs =>
      if !(c :: cs).all Char.isDigit then none
      else if c = '0' ∧ cs ≠ [] then none
      else
        let n := digitsVal (c :: cs)
        if n < 4294967295 then some n else none

/-- The comparison that orders array-index members numerically. -/
def idxKeyLe (p q : String × Json) : Prop :=
  (arrayIndexVal p.1).getD 0 ≤ (arrayIndexVal q.1).getD 0

instance : DecidableRel idxKeyLe := fun p q => by
  unfold idxKeyLe; infer_instance

instance : IsTotal (String × Json) idxKeyLe :=
  ⟨fun _ _ => Nat.le_total _ _⟩

instance : IsTrans (String × Json) idxKeyLe :=
  ⟨fun _ _ _ => Nat.le_trans⟩

/-- `OrdinaryOwnPropertyKeys` applied to an object whose insertion order is
the given field list: array-index keys first in ascending numeric order, the
rest in insertion order. -/
def enumFields (fields : List (String × Json)) : List (String × Json) :=
  List.insertionSort idxKeyLe
    (fields.filter (fun kv => (arrayIndexVal kv.1).isSome)) ++
  fields.filter (fun kv => !(arrayIndexVal kv.1).isSome)

mutual

/-- The property-enumeration reordering `JSON.stringify` performs at every
object it serializes. -/
def enumJson : Json → Json
  | .undefined => .undefined
  | .null => .null
  | .bool b => .bool b
  | .num n => .num n
  | .str s => .str s
  | .arr xs => .arr (enumJsonList xs)
  | .obj fs => .obj (enumFields (enumJsonFields fs))

def enumJsonList : List Json → List Json
  | [] => []
  | x :: xs => enumJson x :: enumJsonList xs

def enumJsonFields : List (String × Json) → List (String × Json)
  | [] => []
  | (k, v) :: fs => (k, enumJson v) :: enumJsonFields fs

end

/-- `toCanonical` from `kernel/src/canonical.ts`:
`JSON.stringify(obj, sortedReplacer)`.  The replacer pass (`sortJson`)
rebuilds every object with sorted keys and no `undefined` members; the
serializer then walks that rebuild in property-enumeration order
(`enumJson`) and prints it (`stringify`).  Protocol bodies are objects, for
which the result is always a string; a top-level `undefined` (which never
occurs on the verifier paths) is rendered as the TypeScript runtime would
print it. -/
def toCanonical (j : Json) : String :=
  (stringify (enumJson (sortJson j))).getD "undefined"

/-! ## Cryptographic primitives (`kernel/src/crypto.ts`)

BLAKE3 and Ed25519 come from the `@noble` libraries and have no source in the
repository; they are modelled as parameters.  `hash` is `computeBlake3` on a
string (hex-encoded digest); `edVerify pubkey message sig` is the entire
`try` block of `verifySignature` — hex decoding, length checks and
`ed25519.verify` — which catches every exception and returns a boolean. -/
structure CryptoModel where
  hash : String → String
  edVerify : String → String → String → Bool

/-- `computeObjectId` from `kernel/src/canonical.ts`: the BLAKE3 hash of the
canonical JSON of the value **as given** (no field is removed here — the
caller decides what to pass). -/
def computeObjectId (cm : CryptoModel) (j : Json) : String :=
  cm.hash (toCanonical j)

/-- `extractBodyForSigning`: the canonical JSON of the object's body. -/
def extractBodyForSigning (body : Json) : String :=
  toCanonical body

/-- `verifySignature` from `kernel/src/crypto.ts`.  The unknown-suite branch
**throws** (`throw new Error(...)` sits before the `try` block), modelled as
`Except.error`; everything inside the `try` is caught and yields a boolean. -/
def verifySignature (cm : CryptoModel) (pubkey message sig suiteId : String) :
    Except String Bool :=
  if suiteId ≠ "ed25519-blake3" then
    .error ("Unsupported suite: " ++ suiteId ++
      ". Only ed25519-blake3 is currently supported.")
  else
    .ok (cm.edVerify pubkey message sig)

/-! ## Verification (`kernel/src/verify.ts`) -/

/-- `String.prototype.toLowerCase()` restricted to the ASCII range (pubkeys
are hex strings; Lean's `Char.toLower` matches JavaScript on ASCII). -/
def jsToLower (s : String) : String :=
  String.mk (s.data.map Char.toLower)

/-- A `Signature` (`types.ts` shape, as used by the kernel). -/
structure Signature where
  pubkey : String
  sig : String
  suite_id : String
deriving DecidableEq

/-- A `Sigset`: threshold plus signature list.  The threshold is a JavaScript
number, modelled as an integer. -/
structure Sigset where
  threshold : Int
  signatures : List Signature
deriving DecidableEq

/-- A `VerificationResult` as returned by every verifier. -/
structure VerificationResult where
  valid : Bool
  errors : List String
  warnings : Option (List String)
deriving DecidableEq

instance {ε α : Type} [DecidableEq ε] [DecidableEq α] : DecidableEq (Except ε α) := fun
  | .ok a, .ok b =>
      if h : a = b then .isTrue (by rw [h]) else .isFalse (by simp [h])
  | .error a, .error b =>
      if h : a = b then .isTrue (by rw [h]) else .isFalse (by simp [h])
  | .ok _, .error _ => .isFalse (by simp)
  | .error _, .ok _ => .isFalse (by simp)

/-- `success(warnings?)`. -/
def success (warnings : Option (List String)) : VerificationResult :=
  ⟨true, [], warnings⟩

/-- `failure(errors)`. -/
def failure (errors : List String) : VerificationResult :=
  ⟨false, errors, none⟩

/-- The result record of `verifySigset`. -/
structure SigsetResult where
  valid : Bool
  validCount : Nat
  errors : List String
deriving DecidableEq

/-- The signature loop of `verifySigset`, at starting index `i`.  For each
signature: an authorization failure (when an authorized set was supplied)
records an error and skips the signature; otherwise `verifySignature` runs —
and its unknown-suite exception aborts the whole loop. -/
def sigsetLoop (cm : CryptoModel) (message : String)
    (authorized : Option (List String)) (i : Nat) :
    List Signature → Except String (Nat × List String)
  | [] => .ok (0, [])
  | sg :: rest =>
      match authorized with
      | some keys =>
          if !keys.contains (jsToLower sg.pubkey) then do
            let (c, es) ← sigsetLoop cm message authorized (i + 1) rest
            pure (c, ("Signature " ++ toString i ++ ": signer " ++ sg.pubkey ++
              " is not authorized") :: es)
          else do
            let isValid ← verifySignature cm sg.pubkey message sg.sig sg.suite_id
            let (c, es) ← sigsetLoop cm message authorized (i + 1) rest
            if isValid then pure (c + 1, es)
            else pure (c, ("Signature " ++ toString i ++
              ": invalid signature from " ++ sg.pubkey) :: es)
      | none => do
          let isValid ← verifySignature cm sg.pubkey message sg.sig sg.suite_id
          let (c, es) ← sigsetLoop cm message authorized (i + 1) rest
          if isValid then pure (c + 1, es)
          else pure (c, ("Signature " ++ toString i ++
            ": invalid signature from " ++ sg.pubkey) :: es)

/-- `verifySigset` from `kernel/src/verify.ts`.  `authorized = some keys`
models a supplied `Set` of lowercased authorized pubkeys (the empty set is a
truthy JavaScript value, so `some []` rejects every signer). -/
def verifySigset (cm : CryptoModel) (sigset : Sigset) (message : String)
    (authorized : Option (List String)) : Except String SigsetResult := do
  let (validCount, errors) ← sigsetLoop cm message authorized 0 sigset.signatures
  let valid := (validCount : Int) ≥ sigset.threshold
  let errors :=
    if !valid ∧ (validCount : Int) < sigset.threshold then
      errors ++ ["Threshold not met: " ++ toString validCount ++
        " valid signatures, need " ++ toString sigset.threshold]
    else errors
  pure ⟨valid, validCount, errors⟩

/-- An `Intent` wrapper object. -/
structure Intent where
  object_type : String
  body : Json
  sigset : Option Sigset

/-- A `Frame` wrapper object. -/
structure Frame where
  object_type : String
  body : Json
  signature : Option Signature

/-- A `Collapse` wrapper object. -/
structure Collapse where
  object_type : String
  body : Json
  sigset : Option Sigset

/-- The `authorizedPubkeys` set built from `policy.authorized_signers`: absent
or falsy yields the empty set; a truthy array collects each entry's
lowercased `pubkey` (a non-string `pubkey` raises a TypeError at
`.toLowerCase()`); a truthy non-array raises a TypeError when iterated. -/
def buildAuthorized (policy : Json) : Except String (List String) :=
  let signers := policy.get "authorized_signers"
  if !signers.truthy then pure []
  else
    match signers with
    | .arr items =>
        items.mapM (fun item =>
          match item.get "pubkey" with
          | .str s => pure (jsToLower s)
          | _ => .error "TypeError: signer pubkey is not a string")
    | _ => .error "TypeError: authorized_signers is not iterable"

/-- A conditionally produced error list: `[msg]` when `cond` holds. -/
def req (cond : Bool) (msg : String) : List String :=
  if cond then [msg] else []

/-- A conditionally propagated error list. -/
def errIf (cond : Bool) (errs : List String) : List String :=
  if cond then errs else []

/-- `typeof v === 'number'`. -/
def isNum : Json → Bool
  | .num _ => true
  | _ => false

/-- `Array.isArray(v)`. -/
def isArr : Json → Bool
  | .arr _ => true
  | _ => false

/-- The date read used by the expiry warning: `new Date(expires_at)` compared
with `new Date()` (the internal wall-clock read, made explicit as `now`).
`parseDate` models ISO-8601 parsing; a numeric value is an epoch timestamp;
anything else is an invalid date whose comparison is always false. -/
def expiresBefore (parseDate : String → Option Int) (now : Int) : Json → Bool
  | .str s => match parseDate s with
    | some t => t < now
    | none => false
  | .num m => m < now
  | _ => false

/-- The `min_signers` policy check (`body.policy.min_signers` is numeric or
absent in well-formed policies; a non-numeric value is modelled as passing). -/
def minSignersErrors (minSigners : Json) (validCount : Nat) : List String :=
  match minSigners with
  | .num m =>
      if m ≠ 0 ∧ (validCount : Int) < m then
        ["Policy min_signers not met: " ++ toString validCount ++
          " valid, need " ++ toString m]
      else []
  | _ => []

/-- The expiry warning, produced from the internal clock read. -/
def expiryWarnings (parseDate : String → Option Int) (now : Int)
    (expiresAt : Json) : List String :=
  if expiresAt.truthy ∧ expiresBefore parseDate now expiresAt then
    ["Intent has expired at " ++ expiresAt.display]
  else []

/-- `verifyIntent` from `kernel/src/verify.ts`.  `now` is the value of the
internal `new Date()` read in the expiry check, made an explicit parameter so
that the function is a pure function of its arguments. -/
def verifyIntent (cm : CryptoModel) (parseDate : String → Option Int)
    (now : Int) (intent : Intent) : Except String VerificationResult :=
  if intent.object_type ≠ "intent" then
    pure (failure ["Invalid object_type: expected 'intent', got '" ++
      intent.object_type ++ "'"])
  else if !intent.body.truthy then pure (failure ["Missing body"])
  else
    let body := intent.body
    let structuralErrors :=
      req (!(body.get "id").truthy) "Missing body.id" ++
      req (!(body.get "version").truthy) "Missing body.version" ++
      req (!(body.get "policy").truthy) "Missing body.policy"
    if structuralErrors ≠ [] then pure (failure structuralErrors)
    else do
      let computedId := computeObjectId cm body
      let idErrors := req (body.get "id" != Json.str computedId)
        ("ID mismatch: body.id is " ++ (body.get "id").display ++
          ", computed ID is " ++ computedId)
      let authorized ← buildAuthorized (body.get "policy")
      match intent.sigset with
      | none => pure (failure (idErrors ++ ["Missing sigset"]))
      | some sigset => do
          let sigResult ← verifySigset cm sigset (extractBodyForSigning body)
            (some authorized)
          let errors := idErrors ++ errIf (!sigResult.valid) sigResult.errors ++
            minSignersErrors ((body.get "policy").get "min_signers")
              sigResult.validCount
          let warnings := expiryWarnings parseDate now
            ((body.get "policy").get "expires_at")
          if errors ≠ [] then pure (failure errors)
          else pure (success (if warnings ≠ [] then some warnings else none))

/-- `verifyFrame` from `kernel/src/verify.ts`.  The optional `intent` is the
parent-context parameter. -/
def verifyFrame (cm : CryptoModel) (frame : Frame) (intent : Option Intent) :
    Except String VerificationResult :=
  if frame.object_type ≠ "frame" then
    pure (failure ["Invalid object_type: expected 'frame', got '" ++
      frame.object_type ++ "'"])
  else if !frame.body.truthy then pure (failure ["Missing body"])
  else
    let body := frame.body
    let structuralErrors :=
      req (!(body.get "id").truthy) "Missing body.id" ++
      req (!(body.get "intent_id").truthy) "Missing body.intent_id" ++
      req (!isNum (body.get "sequence")) "Missing or invalid body.sequence" ++
      req (!(body.get "executor").truthy) "Missing body.executor"
    if structuralErrors ≠ [] then pure (failure structuralErrors)
    else
      let computedId := computeObjectId cm body
      let idErrors := req (body.get "id" != Json.str computedId)
        ("ID mismatch: body.id is " ++ (body.get "id").display ++
          ", computed ID is " ++ computedId)
      match frame.signature with
      | none => pure (failure (idErrors ++ ["Missing signature"]))
      | some sg => do
          let sigValid ← verifySignature cm sg.pubkey
            (extractBodyForSigning body) sg.sig sg.suite_id
          let sigErrors := req (!sigValid) "Invalid executor signature"
          match body.get "executor" with
          | .str executor =>
              let matchErrors := req (jsToLower sg.pubkey != jsToLower executor)
                ("Signature pubkey " ++ sg.pubkey ++
                  " does not match executor " ++ executor)
              match intent with
              | none =>
                  let errors := idErrors ++ sigErrors ++ matchErrors
                  if errors ≠ [] then pure (failure errors)
                  else pure (success none)
              | some it => do
                  let intentIdErrors :=
                    req (body.get "intent_id" != it.body.get "id")
                      ("Frame intent_id " ++ (body.get "intent_id").display ++
                        " does not match intent " ++ (it.body.get "id").display)
                  match it.body.get "policy" with
                  | .undefined => .error "TypeError: intent policy is undefined"
                  | .null => .error "TypeError: intent policy is null"
                  | policy => do
                      let authorized ← buildAuthorized policy
                      let warnings :=
                        req (!authorized.contains (jsToLower executor))
                          ("Executor " ++ executor ++
                            " is not in intent's authorized_signers")
                      let errors := idErrors ++ sigErrors ++ matchErrors ++
                        intentIdErrors
                      if errors ≠ [] then pure (failure errors)
                      else pure (success
                        (if warnings ≠ [] then some warnings else none))
          | _ => .error "TypeError: executor is not a string"

/-- The summary warning of `verifyCollapse`. -/
def summaryWarnings (body : Json) (frameIdCount : Nat) : List String :=
  if !(body.get "summary").truthy then ["Missing body.summary"]
  else if (body.get "summary").get "frame_count" ≠ .num frameIdCount then
    ["Summary frame_count (" ++ ((body.get "summary").get "frame_count").display ++
      ") does not match frame_ids length (" ++ toString frameIdCount ++ ")"]
  else []

/-- The cross-reference block of `verifyCollapse`: warnings for referenced
frames that were not provided, and errors for provided frames whose
`intent_id` differs from the collapse's. -/
def collapseFrameChecks (frames : Option (List Frame)) (body : Json)
    (frameIds : List Json) : List String × List String :=
  match frames with
  | some fs =>
      if fs.length > 0 then
        let frameIdSet := fs.map (fun f => f.body.get "id")
        let missing := (frameIds.filter
          (fun fid => !frameIdSet.contains fid)).map
          (fun fid => "Frame " ++ fid.display ++
            " referenced in collapse but not provided")
        let mismatched := (fs.filter
          (fun f => f.body.get "intent_id" ≠ body.get "intent_id")).map
          (fun f => "Frame " ++ (f.body.get "id").display ++
            " has intent_id " ++ (f.body.get "intent_id").display ++
            ", expected " ++ (body.get "intent_id").display)
        (mismatched, missing)
      else ([], [])
  | none => ([], [])

/-- `verifyCollapse` from `kernel/src/verify.ts`. -/
def verifyCollapse (cm : CryptoModel) (collapse : Collapse)
    (frames : Option (List Frame)) : Except String VerificationResult :=
  if collapse.object_type ≠ "collapse" then
    pure (failure ["Invalid object_type: expected 'collapse', got '" ++
      collapse.object_type ++ "'"])
  else if !collapse.body.truthy then pure (failure ["Missing body"])
  else
    let body := collapse.body
    let structuralErrors :=
      req (!(body.get "id").truthy) "Missing body.id" ++
      req (!(body.get "intent_id").truthy) "Missing body.intent_id" ++
      req (!isArr (body.get "frame_ids")) "Missing or invalid body.frame_ids"
    if structuralErrors ≠ [] then pure (failure structuralErrors)
    else do
      let computedId := computeObjectId cm body
      let idErrors := req (body.get "id" != Json.str computedId)
        ("ID mismatch: body.id is " ++ (body.get "id").display ++
          ", computed ID is " ++ computedId)
      match collapse.sigset with
      | none => pure (failure (idErrors ++ ["Missing sigset"]))
      | some sigset => do
          let sigResult ← verifySigset cm sigset (extractBodyForSigning body) none
          let frameIds := match body.get "frame_ids" with
            | .arr ids => ids
            | _ => []
          let checks := collapseFrameChecks frames body frameIds
          let errors := idErrors ++ errIf (!sigResult.valid) sigResult.errors ++
            checks.1
          let warnings := summaryWarnings body frameIds.length ++ checks.2
          if errors ≠ [] then pure (failure errors)
          else pure (success (if warnings ≠ [] then some warnings else none))

/-- A generic signed object, as read from disk and passed to `verify`. -/
structure SignedObject where
  object_type : String
  body : Json
  sigset : Option Sigset
  signature : Option Signature

/-- `verifySegment` from `kernel/src/verify.ts`. -/
def verifySegment (cm : CryptoModel) (segment : SignedObject) :
    Except String VerificationResult :=
  if segment.object_type ≠ "segment" then
    pure (failure ["Invalid object_type: expected 'segment', got '" ++
      segment.object_type ++ "'"])
  else if !segment.body.truthy then pure (failure ["Missing body"])
  else
    let body := segment.body
    let computedId := computeObjectId cm body
    let idErrors := req (body.get "id" != Json.str computedId)
      ("ID mismatch: body.id is " ++ (body.get "id").display ++
        ", computed ID is " ++ computedId)
    match segment.sigset with
    | none => pure (failure (idErrors ++ ["Missing sigset"]))
    | some sigset => do
        let sigResult ← verifySigset cm sigset (extractBodyForSigning body) none
        let errors := idErrors ++ errIf (!sigResult.valid) sigResult.errors
        if errors ≠ [] then pure (failure errors)
        else pure (success none)

/-- Modelled from the spec: the type guards `isIntent` / `isFrame` /
`isCollapse` / `isSegment` live in `types.ts`, which is not part of the
available sources; per the external-interface section they discriminate a
signed object on its `object_type` tag. -/
def verify (cm : CryptoModel) (parseDate : String → Option Int) (now : Int)
    (obj : SignedObject) : Except String VerificationResult :=
  if obj.object_type = "intent" then
    verifyIntent cm parseDate now ⟨obj.object_type, obj.body, obj.sigset⟩
  else if obj.object_type = "frame" then
    verifyFrame cm ⟨obj.object_type, obj.body, obj.signature⟩ none
  else if obj.object_type = "collapse" then
    verifyCollapse cm ⟨obj.object_type, obj.body, obj.sigset⟩ none
  else if obj.object_type = "segment" then
    verifySegment cm obj
  else
    pure (failure ["Unknown object type"])

/-! ## Properties of the lexicographic order on code-unit lists -/

theorem lexLt_irrefl : ∀ l, lexLt l l = false
  | [] => rfl
  | a :: as => by simp [lexLt, lexLt_irrefl as]

theorem lexLt_asymm : ∀ l₁ l₂, lexLt l₁ l₂ = true → lexLt l₂ l₁ = false
  | _, [], h => by simp [lexLt] at h
  | [], _ :: _, _ => rfl
  | a :: as, b :: bs, h => by
      simp only [lexLt, Bool.or_eq_true, Bool.and_eq_true, decide_eq_true_eq,
        beq_iff_eq] at h
      rcases h with h | ⟨rfl, h⟩
      · simp [lexLt, Nat.lt_asymm h, Nat.ne_of_gt h]
      · simp [lexLt, Nat.lt_irrefl, lexLt_asymm as bs h]

theorem lexLt_trans : ∀ l₁ l₂ l₃, lexLt l₁ l₂ = true → lexLt l₂ l₃ = true →
    lexLt l₁ l₃ = true
  | _, _, [], _, h₂ => by simp [lexLt] at h₂
  | [], _, _ :: _, _, _ => rfl
  | _ :: _, [], _, h₁, _ => by simp [lexLt] at h₁
  | a :: as, b :: bs, c :: cs, h₁, h₂ => by
      simp only [lexLt, Bool.or_eq_true, Bool.and_eq_true, decide_eq_true_eq,
        beq_iff_eq] at h₁ h₂ ⊢
      rcases h₁ with h₁ | ⟨rfl, h₁⟩ <;> rcases h₂ with h₂ | ⟨rfl, h₂⟩
      · exact .inl (Nat.lt_trans h₁ h₂)
      · exact .inl h₁
      · exact .inl h₂
      · exact .inr ⟨rfl, lexLt_trans as bs cs h₁ h₂⟩

theorem lexLt_total : ∀ l₁ l₂, l₁ ≠ l₂ → lexLt l₁ l₂ = true ∨ lexLt l₂ l₁ = true
  | [], [], h => absurd rfl h
  | [], _ :: _, _ => .inl rfl
  | _ :: _, [], _ => .inr rfl
  | a :: as, b :: bs, h => by
      simp only [lexLt, Bool.or_eq_true, Bool.and_eq_true, decide_eq_true_eq,
        beq_iff_eq]
      rcases Nat.lt_trichotomy a b with hab | rfl | hab
      · exact .inl (.inl hab)
      · rcases lexLt_total as bs (by intro hh; exact h (by rw [hh])) with hl | hl
        · exact .inl (.inr ⟨rfl, hl⟩)
        · exact .inr (.inr ⟨rfl, hl⟩)
      · exact .inr (.inl hab)

/-- Dropping a common nonempty suffix distinction: comparing `a ++ x` with
`a ++ y` compares `x` with `y`. -/
theorem lexLt_append_same : ∀ a x y, lexLt (a ++ x) (a ++ y) = lexLt x y
  | [], _, _ => rfl
  | c :: a, x, y => by simp [lexLt, lexLt_append_same a x y]

/-- When neither of `x`, `y` extends to the other, appending anything to
either side does not change their comparison. -/
theorem lexLt_append_of_nofix :
    ∀ x y u v, (∀ t, x ++ t ≠ y) → (∀ t, y ++ t ≠ x) →
      lexLt (x ++ u) (y ++ v) = lexLt x y
  | [], y, _, _, hxy, _ => absurd rfl (hxy y)
  | a :: x, [], _, _, _, hyx => absurd rfl (hyx (a :: x))
  | a :: x, b :: y, u, v, hxy, hyx => by
      rcases Nat.decEq a b with hab | rfl
      · have hb : (a == b) = false := by simp [hab]
        simp [lexLt, hb]
      · have hx : ∀ t, x ++ t ≠ y := fun t ht => hxy t (by simp [ht])
        have hy : ∀ t, y ++ t ≠ x := fun t ht => hyx t (by simp [ht])
        simp [lexLt, lexLt_append_of_nofix x y u v hx hy]

/-! ## UTF-16 facts -/

/-- A `Char` is a Unicode scalar value: it is never a surrogate code point. -/
theorem char_valid_nat (c : Char) :
    c.toNat < 0xD800 ∨ (0xDFFF < c.toNat ∧ c.toNat < 0x110000) :=
  c.valid

theorem char_eq_of_toNat {c d : Char} (h : c.toNat = d.toNat) : c = d :=
  Char.eq_of_val_eq (UInt32.eq_of_toBitVec_eq (BitVec.eq_of_toNat_eq h))

/-- No character's UTF-16 encoding extends a different character's: the first
code unit of an astral pair is a high surrogate, which is never a scalar
value, and equal unit lists decode to equal scalars. -/
theorem charUtf16_nofix : ∀ (c d : Char) (t : List Nat),
    charUtf16 c ++ t = charUtf16 d → c = d := by
  intro c d t h
  have hc := char_valid_nat c
  have hd := char_valid_nat d
  by_cases h1 : c.toNat < 0x10000 <;> by_cases h2 : d.toNat < 0x10000 <;>
    simp only [charUtf16, h1, h2, if_true, if_false, reduceIte, List.cons_append,
      List.nil_append, List.cons.injEq] at h
  · exact char_eq_of_toNat h.1
  · exfalso; have h1 := h.1; omega
  · exfalso; exact (List.cons_ne_nil _ _) h.2
  · exact char_eq_of_toNat (by have ha := h.1; have hb := h.2.1; omega)

theorem charUtf16_ne_nil (c : Char) : charUtf16 c ≠ [] := by
  unfold charUtf16; split <;> simp

/-- Generic injectivity of character-wise encodings in which no character's
code extends another's. -/
theorem flatMap_enc_inj (enc : Char → List Nat)
    (hno : ∀ c d t, enc c ++ t = enc d → c = d) (hne : ∀ c, enc c ≠ []) :
    ∀ l₁ l₂ : List Char, l₁.flatMap enc = l₂.flatMap enc → l₁ = l₂
  | [], [], _ => rfl
  | [], c :: l₂, h => by
      exfalso
      simp only [List.flatMap_nil, List.flatMap_cons] at h
      exact hne c (List.append_eq_nil.1 h.symm).1
  | c :: l₁, [], h => by
      exfalso
      simp only [List.flatMap_nil, List.flatMap_cons] at h
      exact hne c (List.append_eq_nil.1 h).1
  | c :: l₁, d :: l₂, h => by
      simp only [List.flatMap_cons] at h
      have hcd : c = d := by
        rcases List.append_eq_append_iff.1 h with ⟨m, hm1, -⟩ | ⟨m, hm1, -⟩
        · exact hno c d m hm1.symm
        · exact (hno d c m hm1.symm).symm
      subst hcd
      have := List.append_cancel_left h
      rw [flatMap_enc_inj enc hno hne l₁ l₂ this]

theorem utf16Units_inj {a b : String} (h : utf16Units a = utf16Units b) : a = b := by
  have := flatMap_enc_inj charUtf16 charUtf16_nofix charUtf16_ne_nil a.data b.data h
  cases a; cases b; exact congrArg String.mk this

/-! ## The JavaScript string order is a total preorder -/

theorem jsLt_asymm {a b : String} (h : jsLt a b = true) : jsLt b a = false :=
  lexLt_asymm _ _ h

theorem jsLe_total (a b : String) : jsLe a b = true ∨ jsLe b a = true := by
  unfold jsLe
  by_cases h : jsLt b a = true
  · right; simp [jsLt_asymm h]
  · left; simp [Bool.not_eq_true] at h; simp [h]

theorem jsLe_trans {a b c : String} (h₁ : jsLe a b = true) (h₂ : jsLe b c = true) :
    jsLe a c = true := by
  unfold jsLe jsLt at h₁ h₂ ⊢
  simp only [Bool.not_eq_eq_eq_not, Bool.not_true] at h₁ h₂ ⊢
  by_cases hca : lexLt (utf16Units c) (utf16Units a) = true
  · exfalso
    by_cases hne : utf16Units c = utf16Units b
    · rw [hne] at hca; rw [hca] at h₁; exact Bool.noConfusion h₁
    · rcases lexLt_total _ _ hne with hcb | hbc
      · rw [hcb] at h₂; exact Bool.noConfusion h₂
      · have := lexLt_trans _ _ _ hbc hca
        rw [this] at h₁; exact Bool.noConfusion h₁
  · simpa [Bool.not_eq_true] using hca

/-- Distinct strings are strictly comparable in the JavaScript order. -/
theorem jsLt_total {a b : String} (h : a ≠ b) :
    jsLt a b = true ∨ jsLt b a = true :=
  lexLt_total _ _ (fun hu => h (utf16Units_inj hu))

theorem jsLt_of_jsLe_of_ne {a b : String} (h : jsLe a b = true) (hne : a ≠ b) :
    jsLt a b = true := by
  rcases jsLt_total hne with hl | hl
  · exact hl
  · unfold jsLe at h; rw [hl] at h; exact Bool.noConfusion h

/-! ## Key-sorting facts for `sortFields` -/

/-- The sort comparison used by `sortFields`. -/
def fieldLe (p q : String × Json) : Prop := jsLe p.1 q.1 = true

instance : DecidableRel fieldLe := fun p q => by
  unfold fieldLe; infer_instance

instance : IsTotal (String × Json) fieldLe :=
  ⟨fun p q => jsLe_total p.1 q.1⟩

instance : IsTrans (String × Json) fieldLe :=
  ⟨fun _ _ _ => jsLe_trans⟩

/-- A strict-or-equal companion order, antisymmetric, used to see that two
sorted key-distinct permutations coincide. -/
def fieldOrd (p q : String × Json) : Prop := jsLt p.1 q.1 = true ∨ p = q

instance : IsAntisymm (String × Json) fieldOrd := by
  constructor
  intro p q hpq hqp
  rcases hpq with h₁ | h₁
  · rcases hqp with h₂ | h₂
    · rw [jsLt_asymm h₁] at h₂; exact Bool.noConfusion h₂
    · exact h₂.symm
  · exact h₁

theorem sortFields_perm (fs : List (String × Json)) : (sortFields fs).Perm fs :=
  List.perm_insertionSort _ fs

theorem sortFields_sorted (fs : List (String × Json)) :
    List.Sorted fieldLe (sortFields fs) :=
  List.sorted_insertionSort fieldLe fs

/-- On duplicate-free key sets (JavaScript objects), the sorted field list is
determined by the multiset of fields: permuted inputs sort identically. -/
theorem sortFields_eq_of_perm {fs gs : List (String × Json)}
    (hp : fs.Perm gs) (hnd : (fs.map Prod.fst).Nodup) :
    sortFields fs = sortFields gs := by
  have hndg : (gs.map Prod.fst).Nodup := ((hp.map Prod.fst).nodup_iff).1 hnd
  have hperm : (sortFields fs).Perm (sortFields gs) :=
    ((sortFields_perm fs).trans hp).trans (sortFields_perm gs).symm
  have hsord : ∀ (l : List (String × Json)), (l.map Prod.fst).Nodup →
      List.Sorted fieldLe l → List.Sorted fieldOrd l := by
    intro l hnodup hs
    have hne : List.Pairwise (fun p q : String × Json => p.1 ≠ q.1) l :=
      (List.pairwise_map).1 hnodup
    exact (hs.and hne).imp (fun h => .inl (jsLt_of_jsLe_of_ne h.1 h.2))
  exact List.eq_of_perm_of_sorted hperm
    (hsord _ (((sortFields_perm fs).map Prod.fst).nodup_iff.2 hnd)
      (sortFields_sorted fs))
    (hsord _ (((sortFields_perm gs).map Prod.fst).nodup_iff.2 hndg)
      (sortFields_sorted gs))

/-! ## Semantic equality of JSON values

Two values are semantically equal when they agree up to reordering of object
fields, at every nesting level — the "same fields and values, arbitrary field
order" relation of the specification's canonical-determinism property. -/

mutual

inductive SemEq : Json → Json → Prop where
  | undefined : SemEq .undefined .undefined
  | null : SemEq .null .null
  | bool (b : Bool) : SemEq (.bool b) (.bool b)
  | num (n : Int) : SemEq (.num n) (.num n)
  | str (s : String) : SemEq (.str s) (.str s)
  | arr {xs ys : List Json} : SemEqList xs ys → SemEq (.arr xs) (.arr ys)
  | obj {fs gs gs2 : List (String × Json)} :
      SemEqFields fs gs → gs.Perm gs2 → SemEq (.obj fs) (.obj gs2)

inductive SemEqList : List Json → List Json → Prop where
  | nil : SemEqList [] []
  | cons {x y : Json} {xs ys : List Json} :
      SemEq x y → SemEqList xs ys → SemEqList (x :: xs) (y :: ys)

inductive SemEqFields :
    List (String × Json) → List (String × Json) → Prop where
  | nil : SemEqFields [] []
  | cons {k : String} {v w : Json} {fs gs : List (String × Json)} :
      SemEq v w → SemEqFields fs gs → SemEqFields ((k, v) :: fs) ((k, w) :: gs)

end

/-! ## Well-formedness: JavaScript objects have duplicate-free keys -/

/-- Key lists of JavaScript objects are duplicate-free. -/
def nodupKeys : List (String × Json) → Bool
  | [] => true
  | (k, _) :: fs => !(fs.any (fun kv => kv.1 == k)) && nodupKeys fs

theorem nodupKeys_iff (fs : List (String × Json)) :
    nodupKeys fs = true ↔ (fs.map Prod.fst).Nodup := by
  induction fs with
  | nil => simp [nodupKeys]
  | cons kv fs ih =>
      obtain ⟨k, v⟩ := kv
      simp only [nodupKeys, Bool.and_eq_true, Bool.not_eq_eq_eq_not, Bool.not_true,
        List.map_cons, List.nodup_cons, List.mem_map, ih, List.any_eq_false,
        beq_iff_eq]
      constructor
      · rintro ⟨h1, h2⟩
        exact ⟨fun ⟨x, hx, he⟩ => h1 x hx he, h2⟩
      · rintro ⟨h1, h2⟩
        exact ⟨fun x hx he => h1 ⟨x, hx, he⟩, h2⟩

mutual

/-- A value all of whose objects (at every level) have duplicate-free keys. -/
def wfJson : Json → Bool
  | .undefined => true
  | .null => true
  | .bool _ => true
  | .num _ => true
  | .str _ => true
  | .arr xs => wfList xs
  | .obj fs => nodupKeys fs && wfFields fs

def wfList : List Json → Bool
  | [] => true
  | x :: xs => wfJson x && wfList xs

def wfFields : List (String × Json) → Bool
  | [] => true
  | (_, v) :: fs => wfJson v && wfFields fs

end

theorem wfList_mem {xs : List Json} (h : wfList xs = true) {x : Json}
    (hx : x ∈ xs) : wfJson x = true := by
  induction xs with
  | nil => cases hx
  | cons a xs ih =>
      simp only [wfList, Bool.and_eq_true] at h
      rcases hx with _ | hx
      · exact h.1
      · exact ih h.2 (by assumption)

theorem wfFields_mem {fs : List (String × Json)} (h : wfFields fs = true)
    {kv : String × Json} (hkv : kv ∈ fs) : wfJson kv.2 = true := by
  induction fs with
  | nil => cases hkv
  | cons a fs ih =>
      obtain ⟨k, v⟩ := a
      simp only [wfFields, Bool.and_eq_true] at h
      rcases hkv with _ | hkv
      · exact h.1
      · exact ih h.2 (by assumption)

/-! ## Canonical determinism -/

theorem semEq_undef_iff {v w : Json} (h : SemEq v w) :
    v = .undefined ↔ w = .undefined := by
  cases h <;> simp

/-- `sortJsonFields` drops `undefined` members and recursively sorts the rest. -/
theorem sortJsonFields_eq_filter_map (l : List (String × Json)) :
    sortJsonFields l = (l.filter (fun kv => !decide (kv.2 = Json.undefined))).map
      (fun kv => (kv.1, sortJson kv.2)) := by
  induction l with
  | nil => rfl
  | cons kv l ih =>
      obtain ⟨k, v⟩ := kv
      by_cases hv : v = Json.undefined
      · simp [sortJsonFields, hv, ih]
      · simp [sortJsonFields, hv, ih]

theorem semEqList_sortJsonList : ∀ {xs ys : List Json}, SemEqList xs ys →
    (∀ x ∈ xs, ∀ y, SemEq x y → sortJson x = sortJson y) →
    sortJsonList xs = sortJsonList ys := by
  intro xs
  induction xs with
  | nil => intro ys hl _; cases hl; rfl
  | cons x xs ih =>
      intro ys hl key
      cases hl with
      | cons hxy hrest =>
          rename_i y ys
          simp only [sortJsonList]
          exact congrArg₂ (· :: ·) (key x (by simp) y hxy)
            (ih hrest (fun x hx y hxy => key x (by simp [hx]) y hxy))

theorem semEqFields_sortJsonFields : ∀ {fs gs : List (String × Json)},
    SemEqFields fs gs →
    (∀ kv ∈ fs, ∀ w, SemEq kv.2 w → sortJson kv.2 = sortJson w) →
    sortJsonFields fs = sortJsonFields gs := by
  intro fs
  induction fs with
  | nil => intro gs hf _; cases hf; rfl
  | cons kv fs ih =>
      intro gs hf key
      obtain ⟨k, v⟩ := kv
      cases hf with
      | cons hvw hrest =>
          rename_i w gs
          have ih2 := ih hrest (fun kv hkv w hw => key kv (by simp [hkv]) w hw)
          by_cases hv : v = Json.undefined
          · have hw : w = Json.undefined := (semEq_undef_iff hvw).1 hv
            simp [sortJsonFields, hv, hw, ih2]
          · have hw : w ≠ Json.undefined := fun he => hv ((semEq_undef_iff hvw).2 he)
            simp only [sortJsonFields, if_neg hv, if_neg hw]
            exact congrArg₂ (· :: ·)
              (congrArg (Prod.mk k) (key (k, v) (by simp) w hvw)) ih2

theorem sortJsonFields_perm {gs gs2 : List (String × Json)} (hp : gs.Perm gs2) :
    (sortJsonFields gs).Perm (sortJsonFields gs2) := by
  rw [sortJsonFields_eq_filter_map, sortJsonFields_eq_filter_map]
  exact (hp.filter _).map _

theorem sortJsonFields_keys_nodup {fs : List (String × Json)}
    (h : (fs.map Prod.fst).Nodup) :
    ((sortJsonFields fs).map Prod.fst).Nodup := by
  rw [sortJsonFields_eq_filter_map]
  have hmap : ((fs.filter (fun kv => !decide (kv.2 = Json.undefined))).map
      (fun kv => (kv.1, sortJson kv.2))).map Prod.fst =
      (fs.filter (fun kv => !decide (kv.2 = Json.undefined))).map Prod.fst := by
    simp [List.map_map, Function.comp]
  rw [hmap]
  exact h.sublist ((List.filter_sublist fs).map Prod.fst)

/-- Semantically equal values canonical-sort identically (by strong induction
on the size of the left value; its objects must have duplicate-free keys, as
JavaScript objects do). -/
theorem semEq_sortJson :
    ∀ n : Nat, ∀ a b : Json, sizeOf a ≤ n → SemEq a b → wfJson a = true →
      sortJson a = sortJson b := by
  intro n
  induction n using Nat.strong_induction_on with
  | _ n ih =>
    intro a b hsz hsem hwf
    cases hsem with
    | undefined => rfl
    | null => rfl
    | bool => rfl
    | num => rfl
    | str => rfl
    | arr hl =>
        rename_i xs ys
        have key : ∀ x ∈ xs, ∀ y, SemEq x y → sortJson x = sortJson y := by
          intro x hx y hxy
          have h1 : sizeOf x < sizeOf (Json.arr xs) := by
            have := List.sizeOf_lt_of_mem hx
            simp only [Json.arr.sizeOf_spec]
            omega
          exact ih (sizeOf x) (by omega) x y le_rfl hxy
            (wfList_mem (by simpa [wfJson] using hwf) hx)
        simp only [sortJson]
        exact congrArg Json.arr (semEqList_sortJsonList hl key)
    | obj hf hp =>
        rename_i fs gs gs2
        simp only [wfJson, Bool.and_eq_true] at hwf
        have key : ∀ kv ∈ fs, ∀ w, SemEq kv.2 w → sortJson kv.2 = sortJson w := by
          intro kv hkv w hw
          have h1 : sizeOf kv.2 < sizeOf (Json.obj fs) := by
            have h2 := List.sizeOf_lt_of_mem hkv
            obtain ⟨k, v⟩ := kv
            simp only [Json.obj.sizeOf_spec]
            simp only [Prod.mk.sizeOf_spec] at h2
            omega
          exact ih (sizeOf kv.2) (by omega) kv.2 w le_rfl hw
            (wfFields_mem hwf.2 hkv)
        have h1 : sortJsonFields fs = sortJsonFields gs :=
          semEqFields_sortJsonFields hf key
        have h2 : (sortJsonFields gs).Perm (sortJsonFields gs2) :=
          sortJsonFields_perm hp
        have hnd : ((sortJsonFields fs).map Prod.fst).Nodup :=
          sortJsonFields_keys_nodup ((nodupKeys_iff fs).1 hwf.1)
        simp only [sortJson]
        exact congrArg Json.obj (sortFields_eq_of_perm (h1 ▸ h2) hnd)

theorem semEq_toCanonical {a b : Json} (h : SemEq a b) (hwf : wfJson a = true) :
    toCanonical a = toCanonical b := by
  unfold toCanonical
  rw [semEq_sortJson (sizeOf a) a b le_rfl h hwf]

/-! ## UTF-8 byte order

The specification demands map keys ordered by the byte value of their UTF-8
encodings.  `Object.keys(value).sort()` instead sorts by UTF-16 code units;
the two orders agree exactly on keys inside the Basic Multilingual Plane. -/

/-- The UTF-8 bytes of one character (RFC 3629). -/
def charUtf8 (c : Char) : List Nat :=
  if c.toNat < 0x80 then [c.toNat]
  else if c.toNat < 0x800 then [0xC0 + c.toNat / 0x40, 0x80 + c.toNat % 0x40]
  else if c.toNat < 0x10000 then
    [0xE0 + c.toNat / 0x1000, 0x80 + c.toNat / 0x40 % 0x40, 0x80 + c.toNat % 0x40]
  else
    [0xF0 + c.toNat / 0x40000, 0x80 + c.toNat / 0x1000 % 0x40,
     0x80 + c.toNat / 0x40 % 0x40, 0x80 + c.toNat % 0x40]

/-- The UTF-8 bytes of a string. -/
def utf8Units (s : String) : List Nat :=
  s.data.flatMap charUtf8

/-- Strict UTF-8 byte order on strings. -/
def utf8Lt (a b : String) : Bool := lexLt (utf8Units a) (utf8Units b)

/-- Non-strict UTF-8 byte order on strings. -/
def utf8Le (a b : String) : Bool := !utf8Lt b a

theorem charUtf8_ne_nil (c : Char) : charUtf8 c ≠ [] := by
  unfold charUtf8; split <;> try simp
  split <;> try simp
  split <;> simp

/-- UTF-8 is a prefix code: no character's bytes extend a different
character's. -/
theorem charUtf8_nofix : ∀ (c d : Char) (t : List Nat),
    charUtf8 c ++ t = charUtf8 d → c = d := by
  intro c d t h
  have hc := char_valid_nat c
  have hd := char_valid_nat d
  apply char_eq_of_toNat
  by_cases h1 : c.toNat < 0x80 <;> by_cases h2 : c.toNat < 0x800 <;>
    by_cases h3 : c.toNat < 0x10000 <;> by_cases h4 : d.toNat < 0x80 <;>
    by_cases h5 : d.toNat < 0x800 <;> by_cases h6 : d.toNat < 0x10000 <;>
    simp only [charUtf8, h1, h2, h3, h4, h5, h6, if_true, if_false, reduceIte,
      List.cons_append, List.nil_append, List.cons.injEq] at h <;>
    omega

/-- On the BMP, UTF-8 byte order is code-point order. -/
theorem lexLt_charUtf8_iff {c d : Char} (hc : c.toNat < 0x10000)
    (hd : d.toNat < 0x10000) :
    (lexLt (charUtf8 c) (charUtf8 d) = true) ↔ c.toNat < d.toNat := by
  have hcv := char_valid_nat c
  have hdv := char_valid_nat d
  by_cases h1 : c.toNat < 0x80 <;> by_cases h2 : c.toNat < 0x800 <;>
    by_cases h3 : d.toNat < 0x80 <;> by_cases h4 : d.toNat < 0x800 <;>
    simp only [charUtf8, h1, h2, h3, h4, hc, hd, if_true, if_false, reduceIte] <;>
    simp [lexLt] <;> omega

/-- On the BMP, UTF-16 order is code-point order. -/
theorem lexLt_charUtf16_iff {c d : Char} (hc : c.toNat < 0x10000)
    (hd : d.toNat < 0x10000) :
    (lexLt (charUtf16 c) (charUtf16 d) = true) ↔ c.toNat < d.toNat := by
  simp [charUtf16, hc, hd, lexLt]

theorem lexLt_nil_right : ∀ l : List Nat, lexLt l [] = false
  | [] => rfl
  | _ :: _ => rfl

/-- Two prefix-code character encodings that order characters identically on
a class `P` order whole strings over `P` identically. -/
theorem lexLt_flatMap_congr (e1 e2 : Char → List Nat) (P : Char → Prop)
    (hno1 : ∀ c d t, e1 c ++ t = e1 d → c = d)
    (hno2 : ∀ c d t, e2 c ++ t = e2 d → c = d)
    (hne1 : ∀ c, e1 c ≠ []) (hne2 : ∀ c, e2 c ≠ [])
    (hord : ∀ c d, P c → P d → lexLt (e1 c) (e1 d) = lexLt (e2 c) (e2 d)) :
    ∀ l1 l2 : List Char, (∀ c ∈ l1, P c) → (∀ c ∈ l2, P c) →
      lexLt (l1.flatMap e1) (l2.flatMap e1) = lexLt (l1.flatMap e2) (l2.flatMap e2)
  | [], [], _, _ => rfl
  | [], c :: l2, _, _ => by
      simp only [List.flatMap_nil, List.flatMap_cons]
      cases he1 : e1 c with
      | nil => exact absurd he1 (hne1 c)
      | cons x t =>
          cases he2 : e2 c with
          | nil => exact absurd he2 (hne2 c)
          | cons y u => simp [lexLt]
  | a :: l1, [], _, _ => by
      simp only [List.flatMap_cons, List.flatMap_nil, lexLt_nil_right]
  | a :: l1, b :: l2, hP1, hP2 => by
      simp only [List.flatMap_cons]
      by_cases hab : a = b
      · subst hab
        rw [lexLt_append_same, lexLt_append_same]
        exact lexLt_flatMap_congr e1 e2 P hno1 hno2 hne1 hne2 hord l1 l2
          (fun c hc => hP1 c (by simp [hc])) (fun c hc => hP2 c (by simp [hc]))
      · have hx1 : ∀ t, e1 a ++ t ≠ e1 b := fun t ht => hab (hno1 a b t ht)
        have hy1 : ∀ t, e1 b ++ t ≠ e1 a :=
          fun t ht => hab ((hno1 b a t ht).symm)
        have hx2 : ∀ t, e2 a ++ t ≠ e2 b := fun t ht => hab (hno2 a b t ht)
        have hy2 : ∀ t, e2 b ++ t ≠ e2 a :=
          fun t ht => hab ((hno2 b a t ht).symm)
        rw [lexLt_append_of_nofix _ _ _ _ hx1 hy1,
          lexLt_append_of_nofix _ _ _ _ hx2 hy2]
        exact hord a b (hP1 a (by simp)) (hP2 b (by simp))

/-- A string confined to the Basic Multilingual Plane. -/
def bmpOnly (s : String) : Bool := s.data.all (fun c => c.toNat < 0x10000)

/-- On BMP-only strings the JavaScript sort order and the UTF-8 byte order
coincide. -/
theorem jsLe_eq_utf8Le_of_bmp {a b : String} (ha : bmpOnly a = true)
    (hb : bmpOnly b = true) : jsLe a b = utf8Le a b := by
  have key : ∀ x y : String, bmpOnly x = true → bmpOnly y = true →
      jsLt x y = utf8Lt x y := by
    intro x y hx hy
    unfold jsLt utf8Lt utf16Units utf8Units
    refine lexLt_flatMap_congr charUtf16 charUtf8 (fun c => c.toNat < 0x10000)
      charUtf16_nofix charUtf8_nofix charUtf16_ne_nil charUtf8_ne_nil
      ?_ x.data y.data ?_ ?_
    · intro c d hc hd
      rw [Bool.eq_iff_iff, lexLt_charUtf16_iff hc hd, lexLt_charUtf8_iff hc hd]
    · intro c hc; simpa using List.all_eq_true.1 hx c hc
    · intro c hc; simpa using List.all_eq_true.1 hy c hc
  unfold jsLe utf8Le
  rw [key b a hb ha]

/-! ## Key order inside the canonical form -/

/-- Adjacent keys of a field list are ordered by `le`. -/
def chainKeysBy (le : String → String → Bool) : List (String × Json) → Bool
  | [] => true
  | [_] => true
  | p :: q :: t => le p.1 q.1 && chainKeysBy le (q :: t)

mutual

/-- Every object's adjacent keys, at every nesting level, are `le`-ordered. -/
def canonKeysSortedBy (le : String → String → Bool) : Json → Bool
  | .undefined => true
  | .null => true
  | .bool _ => true
  | .num _ => true
  | .str _ => true
  | .arr xs => canonKeysSortedByList le xs
  | .obj fs => chainKeysBy le fs && canonKeysSortedByFields le fs

def canonKeysSortedByList (le : String → String → Bool) : List Json → Bool
  | [] => true
  | x :: xs => canonKeysSortedBy le x && canonKeysSortedByList le xs

def canonKeysSortedByFields (le : String → String → Bool) :
    List (String × Json) → Bool
  | [] => true
  | (_, v) :: fs => canonKeysSortedBy le v && canonKeysSortedByFields le fs

end

theorem canonKeysSortedByList_iff (le : String → String → Bool)
    (xs : List Json) : canonKeysSortedByList le xs = true ↔
      ∀ x ∈ xs, canonKeysSortedBy le x = true := by
  induction xs with
  | nil => simp [canonKeysSortedByList]
  | cons x xs ih => simp [canonKeysSortedByList, ih]

theorem canonKeysSortedByFields_iff (le : String → String → Bool)
    (fs : List (String × Json)) : canonKeysSortedByFields le fs = true ↔
      ∀ kv ∈ fs, canonKeysSortedBy le kv.2 = true := by
  induction fs with
  | nil => simp [canonKeysSortedByFields]
  | cons kv fs ih =>
      obtain ⟨k, v⟩ := kv
      simp [canonKeysSortedByFields, ih]

theorem chainKeysBy_of_sorted : ∀ {l : List (String × Json)},
    List.Sorted fieldLe l → chainKeysBy jsLe l = true := by
  intro l
  induction l with
  | nil => intro _; rfl
  | cons p l ih =>
      intro h
      cases l with
      | nil => rfl
      | cons q t =>
          rw [List.sorted_cons] at h
          have h1 : jsLe p.1 q.1 = true := h.1 q (by simp)
          simp only [chainKeysBy, Bool.and_eq_true]
          exact ⟨h1, ih h.2⟩

theorem sortJsonList_eq_map (xs : List Json) :
    sortJsonList xs = xs.map sortJson := by
  induction xs with
  | nil => rfl
  | cons x xs ih => simp [sortJsonList, ih]

/-- The canonical form produced by `sortJson` has every object's keys in
JavaScript sort order (UTF-16 code-unit order), at every nesting level. -/
theorem sortJson_keys_sorted_aux :
    ∀ n : Nat, ∀ j : Json, sizeOf j ≤ n →
      canonKeysSortedBy jsLe (sortJson j) = true := by
  intro n
  induction n using Nat.strong_induction_on with
  | _ n ih =>
    intro j hsz
    cases j with
    | undefined => rfl
    | null => rfl
    | bool b => rfl
    | num m => rfl
    | str s => rfl
    | arr xs =>
        simp only [sortJson, canonKeysSortedBy, sortJsonList_eq_map]
        rw [canonKeysSortedByList_iff]
        intro y hy
        obtain ⟨x, hx, rfl⟩ := List.mem_map.1 hy
        have h1 : sizeOf x < sizeOf (Json.arr xs) := by
          have := List.sizeOf_lt_of_mem hx
          simp only [Json.arr.sizeOf_spec]
          omega
        exact ih (sizeOf x) (by omega) x le_rfl
    | obj fs =>
        simp only [sortJson, canonKeysSortedBy, Bool.and_eq_true]
        constructor
        · exact chainKeysBy_of_sorted (sortFields_sorted _)
        · rw [canonKeysSortedByFields_iff]
          intro kv hkv
          have h1 : kv ∈ sortJsonFields fs :=
            ((sortFields_perm _).mem_iff).1 hkv
          rw [sortJsonFields_eq_filter_map] at h1
          obtain ⟨kv0, hkv0, rfl⟩ := List.mem_map.1 h1
          have h2 : kv0 ∈ fs := List.mem_of_mem_filter hkv0
          have h3 : sizeOf kv0.2 < sizeOf (Json.obj fs) := by
            have h4 := List.sizeOf_lt_of_mem h2
            obtain ⟨k, v⟩ := kv0
            simp only [Json.obj.sizeOf_spec]
            simp only [Prod.mk.sizeOf_spec] at h4
            omega
          exact ih (sizeOf kv0.2) (by omega) kv0.2 le_rfl

theorem sortJson_keys_sorted (j : Json) :
    canonKeysSortedBy jsLe (sortJson j) = true :=
  sortJson_keys_sorted_aux (sizeOf j) j le_rfl

/-! ## Key order after property enumeration

What `JSON.stringify` actually emits at each object: the array-index keys of
the sorted rebuild first, ascending numerically, then the remaining keys in
the JavaScript string sort order. -/

theorem enumJsonFields_eq_map (fs : List (String × Json)) :
    enumJsonFields fs = fs.map (fun kv => (kv.1, enumJson kv.2)) := by
  induction fs with
  | nil => rfl
  | cons kv fs ih =>
      obtain ⟨k, v⟩ := kv
      simp [enumJsonFields, ih]

theorem enumJsonList_eq_map (xs : List Json) :
    enumJsonList xs = xs.map enumJson := by
  induction xs with
  | nil => rfl
  | cons x xs ih => simp [enumJsonList, ih]

theorem enumFields_perm (l : List (String × Json)) : (enumFields l).Perm l :=
  ((List.perm_insertionSort idxKeyLe _).append_right _).trans
    (List.filter_append_perm _ l)

theorem takeWhile_append_all {α : Type} (p : α → Bool) :
    ∀ (xs ys : List α), (∀ x ∈ xs, p x = true) → (∀ y ∈ ys, p y = false) →
      (xs ++ ys).takeWhile p = xs ∧ (xs ++ ys).dropWhile p = ys
  | [], [], _, _ => ⟨rfl, rfl⟩
  | [], y :: ys, _, hy => by
      have h := hy y (by simp)
      simp [List.takeWhile, List.dropWhile, h]
  | x :: xs, ys, hx, hy => by
      have h := hx x (by simp)
      obtain ⟨ht, hd⟩ := takeWhile_append_all p xs ys
        (fun a ha => hx a (by simp [ha])) hy
      simp [List.takeWhile, List.dropWhile, h, ht, hd]

/-- Adjacent array-index keys in ascending numeric order. -/
def chainIdxAsc : List (String × Json) → Bool
  | [] => true
  | [_] => true
  | p :: q :: t =>
      decide ((arrayIndexVal p.1).getD 0 ≤ (arrayIndexVal q.1).getD 0) &&
        chainIdxAsc (q :: t)

theorem chainIdxAsc_of_sorted : ∀ {l : List (String × Json)},
    List.Sorted idxKeyLe l → chainIdxAsc l = true := by
  intro l
  induction l with
  | nil => intro _; rfl
  | cons p l ih =>
      intro h
      cases l with
      | nil => rfl
      | cons q t =>
          rw [List.sorted_cons] at h
          have h1 : idxKeyLe p q := h.1 q (by simp)
          simp only [chainIdxAsc, Bool.and_eq_true, decide_eq_true_eq]
          exact ⟨h1, ih h.2⟩

theorem pairwise_of_chainKeys : ∀ {l : List (String × Json)},
    chainKeysBy jsLe l = true → List.Pairwise fieldLe l := by
  intro l
  induction l with
  | nil => intro _; exact List.Pairwise.nil
  | cons p l ih =>
      intro h
      cases l with
      | nil => exact List.pairwise_singleton _ _
      | cons q t =>
          simp only [chainKeysBy, Bool.and_eq_true] at h
          have hqt := ih h.2
          refine List.Pairwise.cons ?_ hqt
          intro r hr
          rcases hr with _ | hr
          · exact h.1
          · have hqr : fieldLe q r := (List.pairwise_cons.1 hqt).1 r (by assumption)
            exact jsLe_trans h.1 hqr

/-- Emitted key order at one object: a prefix of array-index keys ascending
numerically, then only non-index keys, ordered by the JavaScript string
sort. -/
def enumKeysOrdered (fields : List (String × Json)) : Bool :=
  (fields.dropWhile (fun kv => (arrayIndexVal kv.1).isSome)).all
      (fun kv => !(arrayIndexVal kv.1).isSome) &&
  chainIdxAsc (fields.takeWhile (fun kv => (arrayIndexVal kv.1).isSome)) &&
  chainKeysBy jsLe (fields.dropWhile (fun kv => (arrayIndexVal kv.1).isSome))

theorem enumKeysOrdered_enumFields (l : List (String × Json))
    (hp : List.Pairwise fieldLe l) : enumKeysOrdered (enumFields l) = true := by
  have hidx : ∀ kv ∈ List.insertionSort idxKeyLe
      (l.filter (fun kv => (arrayIndexVal kv.1).isSome)),
      (fun kv : String × Json => (arrayIndexVal kv.1).isSome) kv = true := by
    intro kv hkv
    exact (List.mem_filter.1 ((List.mem_insertionSort idxKeyLe).1 hkv)).2
  have hrest : ∀ kv ∈ l.filter (fun kv => !(arrayIndexVal kv.1).isSome),
      (fun kv : String × Json => (arrayIndexVal kv.1).isSome) kv = false := by
    intro kv hkv
    have := (List.mem_filter.1 hkv).2
    simpa using this
  obtain ⟨ht, hd⟩ := takeWhile_append_all
    (fun kv : String × Json => (arrayIndexVal kv.1).isSome) _ _ hidx hrest
  unfold enumKeysOrdered enumFields
  rw [ht, hd]
  simp only [Bool.and_eq_true]
  refine ⟨⟨?_, ?_⟩, ?_⟩
  · rw [List.all_eq_true]
    intro kv hkv
    simpa using hrest kv hkv
  · exact chainIdxAsc_of_sorted (List.sorted_insertionSort idxKeyLe _)
  · exact chainKeysBy_of_sorted (hp.sublist (List.filter_sublist l))

mutual

/-- Every object of the emission tree, at every nesting level, has its keys in
the emitted (enumeration) order: array-index keys ascending, then the rest in
the JavaScript string order. -/
def enumCanonSorted : Json → Bool
  | .undefined => true
  | .null => true
  | .bool _ => true
  | .num _ => true
  | .str _ => true
  | .arr xs => enumCanonSortedList xs
  | .obj fs => enumKeysOrdered fs && enumCanonSortedFields fs

def enumCanonSortedList : List Json → Bool
  | [] => true
  | x :: xs => enumCanonSorted x && enumCanonSortedList xs

def enumCanonSortedFields : List (String × Json) → Bool
  | [] => true
  | (_, v) :: fs => enumCanonSorted v && enumCanonSortedFields fs

end

theorem enumCanonSortedList_iff (xs : List Json) :
    enumCanonSortedList xs = true ↔ ∀ x ∈ xs, enumCanonSorted x = true := by
  induction xs with
  | nil => simp [enumCanonSortedList]
  | cons x xs ih => simp [enumCanonSortedList, ih]

theorem enumCanonSortedFields_iff (fs : List (String × Json)) :
    enumCanonSortedFields fs = true ↔
      ∀ kv ∈ fs, enumCanonSorted kv.2 = true := by
  induction fs with
  | nil => simp [enumCanonSortedFields]
  | cons kv fs ih =>
      obtain ⟨k, v⟩ := kv
      simp [enumCanonSortedFields, ih]

/-- Enumeration of a key-sorted tree emits, at every level, the array-index
keys ascending numerically followed by the rest in the JavaScript string
order. -/
theorem enumJson_enum_sorted_aux :
    ∀ n : Nat, ∀ j : Json, sizeOf j ≤ n → canonKeysSortedBy jsLe j = true →
      enumCanonSorted (enumJson j) = true := by
  intro n
  induction n using Nat.strong_induction_on with
  | _ n ih =>
    intro j hsz hsor
    cases j with
    | undefined => rfl
    | null => rfl
    | bool b => rfl
    | num m => rfl
    | str s => rfl
    | arr xs =>
        simp only [enumJson, enumCanonSorted, enumJsonList_eq_map]
        rw [enumCanonSortedList_iff]
        intro y hy
        obtain ⟨x, hx, rfl⟩ := List.mem_map.1 hy
        have h1 : sizeOf x < sizeOf (Json.arr xs) := by
          have := List.sizeOf_lt_of_mem hx
          simp only [Json.arr.sizeOf_spec]
          omega
        have h2 : canonKeysSortedBy jsLe x = true := by
          simp only [canonKeysSortedBy] at hsor
          exact (canonKeysSortedByList_iff jsLe xs).1 hsor x hx
        exact ih (sizeOf x) (by omega) x le_rfl h2
    | obj fs =>
        simp only [canonKeysSortedBy, Bool.and_eq_true] at hsor
        simp only [enumJson, enumCanonSorted, Bool.and_eq_true]
        have hpair : List.Pairwise fieldLe (enumJsonFields fs) := by
          rw [enumJsonFields_eq_map]
          rw [List.pairwise_map]
          exact pairwise_of_chainKeys hsor.1
        constructor
        · exact enumKeysOrdered_enumFields _ hpair
        · rw [enumCanonSortedFields_iff]
          intro kv hkv
          have h1 : kv ∈ enumJsonFields fs :=
            (enumFields_perm _).mem_iff.1 hkv
          rw [enumJsonFields_eq_map] at h1
          obtain ⟨kv0, hkv0, rfl⟩ := List.mem_map.1 h1
          have h3 : sizeOf kv0.2 < sizeOf (Json.obj fs) := by
            have h4 := List.sizeOf_lt_of_mem hkv0
            obtain ⟨k, v⟩ := kv0
            simp only [Json.obj.sizeOf_spec]
            simp only [Prod.mk.sizeOf_spec] at h4
            omega
          have h5 : canonKeysSortedBy jsLe kv0.2 = true :=
            (canonKeysSortedByFields_iff jsLe fs).1 hsor.2 kv0 hkv0
          exact ih (sizeOf kv0.2) (by omega) kv0.2 le_rfl h5

/-- The full emission pipeline (`sortJson` then `enumJson`) produces, at
every object, array-index keys ascending numerically followed by the
remaining keys in UTF-16 code-unit order. -/
theorem canonical_enum_sorted (j : Json) :
    enumCanonSorted (enumJson (sortJson j)) = true :=
  enumJson_enum_sorted_aux (sizeOf (sortJson j)) (sortJson j) le_rfl
    (sortJson_keys_sorted j)

/-! ## The valid flag mirrors the error list -/

/-- Every normally returned result has `valid = true` exactly when its error
list is empty. -/
def resultOk (e : Except String VerificationResult) : Prop :=
  ∀ r, e = .ok r → (r.valid = true ↔ r.errors = [])

theorem resultOk_failure {es : List String} (h : es ≠ []) :
    resultOk (pure (failure es)) := by
  intro r hr
  have hre : failure es = r := by
    simpa [pure, Except.pure] using hr
  subst hre
  simp [failure, h]

theorem resultOk_success (w : Option (List String)) :
    resultOk (pure (success w)) := by
  intro r hr
  have hre : success w = r := by
    simpa [pure, Except.pure] using hr
  subst hre
  simp [success]

theorem resultOk_error (s : String) : resultOk (.error s) := by
  intro r hr
  exact absurd hr (by simp)

theorem resultOk_bind {α : Type} {e : Except String α}
    {f : α → Except String VerificationResult} (h : ∀ a, resultOk (f a)) :
    resultOk (e >>= f) := by
  intro r hr
  cases e with
  | error s => simp [Bind.bind, Except.bind] at hr
  | ok a => exact h a r (by simpa [Bind.bind, Except.bind] using hr)

theorem verifyIntent_resultOk (cm : CryptoModel) (pd : String → Option Int)
    (now : Int) (it : Intent) : resultOk (verifyIntent cm pd now it) := by
  simp only [verifyIntent]
  split
  · exact resultOk_failure (by simp)
  · split
    · exact resultOk_failure (by simp)
    · split
      · next h => exact resultOk_failure h
      · apply resultOk_bind; intro a
        split
        · exact resultOk_failure (by simp)
        · apply resultOk_bind; intro sr
          split
          · next h => exact resultOk_failure h
          · exact resultOk_success _

theorem verifyFrame_resultOk (cm : CryptoModel) (fr : Frame)
    (oi : Option Intent) : resultOk (verifyFrame cm fr oi) := by
  simp only [verifyFrame]
  split
  · exact resultOk_failure (by simp)
  · split
    · exact resultOk_failure (by simp)
    · split
      · next h => exact resultOk_failure h
      · split
        · exact resultOk_failure (by simp)
        · apply resultOk_bind; intro sigValid
          split
          · split
            · split
              · next h => exact resultOk_failure h
              · exact resultOk_success _
            · split
              · exact resultOk_error _
              · exact resultOk_error _
              · apply resultOk_bind; intro a
                split
                · next h => exact resultOk_failure h
                · exact resultOk_success _
          · exact resultOk_error _

theorem verifyCollapse_resultOk (cm : CryptoModel) (cl : Collapse)
    (ofs : Option (List Frame)) : resultOk (verifyCollapse cm cl ofs) := by
  simp only [verifyCollapse]
  split
  · exact resultOk_failure (by simp)
  · split
    · exact resultOk_failure (by simp)
    · split
      · next h => exact resultOk_failure h
      · split
        · exact resultOk_failure (by simp)
        · apply resultOk_bind; intro sr
          split
          · next h => exact resultOk_failure h
          · exact resultOk_success _

theorem verifySegment_resultOk (cm : CryptoModel) (so : SignedObject) :
    resultOk (verifySegment cm so) := by
  simp only [verifySegment]
  split
  · exact resultOk_failure (by simp)
  · split
    · exact resultOk_failure (by simp)
    · split
      · exact resultOk_failure (by simp)
      · apply resultOk_bind; intro sr
        split
        · next h => exact resultOk_failure h
        · exact resultOk_success _

theorem verify_resultOk (cm : CryptoModel) (pd : String → Option Int)
    (now : Int) (so : SignedObject) : resultOk (verify cm pd now so) := by
  unfold verify
  split
  · exact verifyIntent_resultOk cm pd now _
  · split
    · exact verifyFrame_resultOk cm _ none
    · split
      · exact verifyCollapse_resultOk cm _ none
      · split
        · exact verifySegment_resultOk cm so
        · exact resultOk_failure (by simp)

/-! ## Concrete instantiations used by the claim theorems

The abstract crypto primitives are instantiated with concrete functions:
`cmConst` makes every hash `"x"` and accepts every signature; `cmInj` is an
injective model hash (so distinct canonical encodings always get distinct
digests, the defining property of a collision-resistant function). -/

def cmConst : CryptoModel := ⟨fun _ => "x", fun _ _ _ => true⟩

def cmInj : CryptoModel := ⟨fun s => "h(" ++ s ++ ")", fun _ _ _ => true⟩

def pdNone : String → Option Int := fun _ => none

def sigA : Signature := ⟨"aa", "s", "ed25519-blake3"⟩

/-! ## Supporting lemmas for the always-supplied authorized-signer set -/

/-- The signature loop against an empty authorized set records one
authorization error per signature and never counts or verifies any. -/
theorem sigsetLoop_empty_auth (cm : CryptoModel) (message : String) :
    ∀ (sigs : List Signature) (i : Nat), ∃ es,
      sigsetLoop cm message (some []) i sigs = .ok (0, es)
  | [], _ => ⟨[], rfl⟩
  | sg :: rest, i => by
      obtain ⟨es, hes⟩ := sigsetLoop_empty_auth cm message rest (i + 1)
      refine ⟨("Signature " ++ toString i ++ ": signer " ++ sg.pubkey ++
        " is not authorized") :: es, ?_⟩
      simp [sigsetLoop, hes, Bind.bind, Except.bind, pure, Except.pure]

/-- Against an empty authorized set, `verifySigset` counts zero valid
signatures and (when the threshold is positive) fails with a nonempty error
list ending in the threshold message. -/
theorem verifySigset_empty_auth (cm : CryptoModel) (ss : Sigset)
    (message : String) (hth : 1 ≤ ss.threshold) : ∃ es,
    verifySigset cm ss message (some []) = .ok ⟨false, 0, es⟩ ∧ es ≠ [] := by
  obtain ⟨es, hes⟩ := sigsetLoop_empty_auth cm message ss.signatures 0
  simp only [verifySigset, hes, Bind.bind, Except.bind]
  have hv : decide ((((0 : Nat)) : Int) ≥ ss.threshold) = false := by
    simp only [decide_eq_false_iff_not]
    intro hc
    simp at hc
    omega
  have hlt : ((((0 : Nat)) : Int) < ss.threshold) := by
    simp
    omega
  refine ⟨es ++ ["Threshold not met: " ++ toString (0 : Nat) ++
    " valid signatures, need " ++ toString ss.threshold], ?_, by simp⟩
  simp [hv, hlt, pure, Except.pure]
  try omega

/-! ## Claim C1 -/

/-- A body before id assignment, as the CLI sees it (`issue-intent` computes
the id while `body.id` is absent). -/
def intentBodyCore : Json := .obj [("policy", .str "p"), ("version", .str "1")]

/-- The specification's id derivation: canonicalize the body with the id field
excluded and hash the result. -/
def specDerivedId : String := computeObjectId cmInj intentBodyCore

/-- The same intent with its spec-derived id stored in the body, as written to
disk by the CLI. -/
def intentSpecDerived : Intent :=
  ⟨"intent",
   .obj [("id", .str specDerivedId), ("policy", .str "p"), ("version", .str "1")],
   some ⟨0, []⟩⟩

/-- Claim C1: the claim asserts that for an object whose declared id was
derived by the documented procedure (canonicalize the body without its id,
then hash), id verification succeeds.  It does not: `verifyIntent` recomputes
`computeObjectId` over the body **with** the id field stored in it, which (for
any hash that separates the two distinct canonical encodings — here the
injective model hash) never equals the declared id, so the intent is rejected
with an ID mismatch. -/
theorem specDerivedId_fails_idCheck :
    intentSpecDerived.body.get "id" = .str specDerivedId ∧
    computeObjectId cmInj intentSpecDerived.body ≠ specDerivedId ∧
    (verifyIntent cmInj pdNone 0 intentSpecDerived).map VerificationResult.valid
      = .ok false := by
  refine ⟨by decide, by decide, by decide⟩

/-! ## Claim C2 -/

def segAB : Json := .obj [("from_pubkey", .str "A"), ("to_pubkey", .str "B")]

def segCD : Json := .obj [("from_pubkey", .str "C"), ("to_pubkey", .str "D")]

/-- A frame whose two segments break path continuity (`B ≠ C`). -/
def frameDisc : Frame :=
  ⟨"frame",
   .obj [("id", .str "x"), ("intent_id", .str "i"), ("sequence", .num 0),
         ("executor", .str "aa"), ("segments", .arr [segAB, segCD])],
   some sigA⟩

/-- Claim C2: the claim asserts a frame with discontinuous consecutive
segments is rejected with a `PathDiscontinuity` error.  `verifyFrame`
contains no path-continuity check at all: the discontinuous frame verifies
fully valid, with an empty error list. -/
theorem discontinuousFrame_verifies_valid :
    frameDisc.body.get "segments" = .arr [segAB, segCD] ∧
    segAB.get "to_pubkey" ≠ segCD.get "from_pubkey" ∧
    verifyFrame cmConst frameDisc none = .ok (success none) := by
  refine ⟨rfl, by decide, by decide⟩

/-! ## Claim C3 -/

/-- A frame carrying segments with the given `energy_partial` values (id and
signature arranged to verify under the concrete crypto model). -/
def frameWithSegs (energies : List Int) : Frame :=
  ⟨"frame",
   .obj [("id", .str "x"), ("intent_id", .str "i"), ("sequence", .num 0),
         ("executor", .str "aa"),
         ("segments", .arr (energies.map (fun e =>
           Json.obj [("energy_partial", .num e)])))],
   some sigA⟩

/-- A parent intent with the given `max_energy`, authorizing the executor. -/
def intentWithMax (maxE : Int) : Intent :=
  ⟨"intent",
   .obj [("id", .str "i"), ("max_energy", .num maxE),
         ("policy", .obj [("authorized_signers",
           .arr [.obj [("pubkey", .str "aa")]])])],
   some ⟨1, [sigA]⟩⟩

/-- Claim C3, counterexample: a frame whose segment energies sum to 1300
against a parent intent with `max_energy = 1000` verifies fully valid — no
`EnergyConservationViolation` (or any other error) is produced. -/
theorem energyExcessFrame_verifies_valid :
    (1000 : Int) < ([600, 700] : List Int).sum ∧
    verifyFrame cmConst (frameWithSegs [600, 700]) (some (intentWithMax 1000))
      = .ok (success none) := by
  refine ⟨by decide, by decide⟩

/-- Claim C3, as amended: `verifyFrame` performs no energy-conservation check
whatsoever — for every list of segment energies exceeding the parent intent's
`max_energy`, verification still returns valid with no errors. -/
theorem verifyFrame_ignores_energy (energies : List Int) (maxE : Int)
    (_hexceeds : maxE < energies.sum) :
    verifyFrame cmConst (frameWithSegs energies) (some (intentWithMax maxE)) =
      .ok (success none) := rfl

/-- Witness instantiating `verifyFrame_ignores_energy`. -/
theorem verifyFrame_ignores_energy_witness :
    (1000 : Int) < ([600, 700] : List Int).sum ∧
    verifyFrame cmConst (frameWithSegs [600, 700]) (some (intentWithMax 1000))
      = .ok (success none) :=
  ⟨by decide, verifyFrame_ignores_energy [600, 700] 1000 (by decide)⟩

/-! ## Claim C4 -/

/-- Claim C4: the claim asserts a duplicate signature from an already-counted
pubkey is counted once only, leaving `validCount` and overall validity
unchanged.  `verifySigset` has no per-signer deduplication: appending a second
copy of the same valid signature raises `validCount` from 1 to 2 and flips a
threshold-2 sigset from invalid to valid. -/
theorem duplicateSignature_inflates_validCount :
    verifySigset cmConst ⟨2, [sigA]⟩ "m" none =
      .ok ⟨false, 1, ["Threshold not met: 1 valid signatures, need 2"]⟩ ∧
    verifySigset cmConst ⟨2, [sigA, sigA]⟩ "m" none = .ok ⟨true, 2, []⟩ := by
  refine ⟨by decide, by decide⟩

/-! ## Claim C5 -/

/-- A frame signed with an unsupported suite id. -/
def frameFoo : SignedObject :=
  ⟨"frame",
   .obj [("id", .str "x"), ("intent_id", .str "i"), ("sequence", .num 0),
         ("executor", .str "aa")],
   none, some ⟨"aa", "s", "foo"⟩⟩

/-- Claim C5: the claim asserts an unsupported suite id yields a distinct
per-signature error and a normal `{valid, errors}` result, never an
exception.  `verifySignature` throws for an unknown suite (the `throw` sits
before its `try` block), and `verify`/`verifyFrame` do not catch it: the call
aborts with an exception instead of returning a verification result. -/
theorem unknownSuite_throws :
    verify cmConst pdNone 0 frameFoo =
      .error "Unsupported suite: foo. Only ed25519-blake3 is currently supported."
    := by decide

/-! ## Claim C6 -/

def cmSelf : CryptoModel := ⟨fun _ => "i", fun _ _ _ => true⟩

def pdFixed : String → Option Int := fun _ => some 100

/-- An intent that fully verifies and carries `policy.expires_at`. -/
def intentExpiring : Intent :=
  ⟨"intent",
   .obj [("id", .str "i"), ("version", .str "1"),
         ("policy", .obj [("authorized_signers",
             .arr [.obj [("pubkey", .str "aa")]]),
           ("expires_at", .str "E")])],
   some ⟨1, [sigA]⟩⟩

/-- Claim C6, counterexample: `verifyIntent` reads the wall clock internally
(`new Date()` in the expiry check), so the same intent verified at two times
produces different results — no expiry warning before `expires_at`, an
`Intent has expired` warning after. -/
theorem verifyIntent_reads_clock :
    verifyIntent cmSelf pdFixed 0 intentExpiring ≠
      verifyIntent cmSelf pdFixed 200 intentExpiring := by decide

/-- Claim C6, as amended: the internal clock read influences only the
warnings.  For every intent and every two times, the two runs of
`verifyIntent` agree on the errors and on the `valid` verdict (and
`verifyFrame`/`verifyCollapse` take no clock at all); only the expiry warning
may differ. -/
theorem verifyIntent_time_affects_warnings_only (cm : CryptoModel)
    (pd : String → Option Int) (now1 now2 : Int) (it : Intent) :
    (verifyIntent cm pd now1 it).map (fun r => (r.valid, r.errors)) =
    (verifyIntent cm pd now2 it).map (fun r => (r.valid, r.errors)) := by
  simp only [verifyIntent]
  split
  · rfl
  · split
    · rfl
    · split
      · rfl
      · cases hb : buildAuthorized (it.body.get "policy") with
        | error s => simp [Bind.bind, Except.bind]
        | ok a =>
            simp only [Bind.bind, Except.bind, hb]
            split
            · rfl
            · rename_i sg hheq
              cases hs : verifySigset cm sg (extractBodyForSigning it.body)
                  (some a) with
              | error e => simp [hs]
              | ok sr =>
                  simp only [hs]
                  split
                  · rfl
                  · simp [Except.map, success, pure, Except.pure]

/-! ## Claim C7 -/

/-- Claim C7: canonical determinism.  For all semantically equal values (same
fields and values, arbitrary field order at every nesting level, with the
duplicate-free keys JavaScript objects guarantee), the canonical encodings are
byte-identical. -/
theorem canonical_deterministic (a b : Json) (ha : wfJson a = true)
    (_hb : wfJson b = true) (h : SemEq a b) : toCanonical a = toCanonical b :=
  semEq_toCanonical h ha

def permObjA : Json :=
  .obj [("a", .num 1), ("b", .obj [("x", .str "u"), ("y", .null)])]

def permObjB : Json :=
  .obj [("b", .obj [("y", .null), ("x", .str "u")]), ("a", .num 1)]

/-- Witness instantiating `canonical_deterministic` on a two-level
reordering. -/
theorem canonical_deterministic_witness :
    wfJson permObjA = true ∧ toCanonical permObjA = toCanonical permObjB := by
  have hInner : SemEq (Json.obj [("x", .str "u"), ("y", .null)])
      (Json.obj [("y", .null), ("x", .str "u")]) :=
    SemEq.obj
      (SemEqFields.cons (SemEq.str "u")
        (SemEqFields.cons SemEq.null SemEqFields.nil))
      (by decide)
  have hFields : SemEqFields
      [("a", Json.num 1), ("b", Json.obj [("x", .str "u"), ("y", .null)])]
      [("a", Json.num 1), ("b", Json.obj [("y", .null), ("x", .str "u")])] :=
    SemEqFields.cons (SemEq.num 1) (SemEqFields.cons hInner SemEqFields.nil)
  have hSem : SemEq permObjA permObjB := SemEq.obj hFields (by decide)
  exact ⟨by decide,
    canonical_deterministic permObjA permObjB (by decide) (by decide) hSem⟩

/-! ## Claim C8 -/

/-- U+FF5E, a BMP character whose UTF-8 encoding (`EF BD 9E`) precedes that of
U+10000 (`F0 90 80 80`), while its UTF-16 unit (`FF5E`) follows U+10000's
leading surrogate (`D800`). -/
def bmpKey : String := String.singleton (Char.ofNat 0xFF5E)

/-- U+10000, the first character outside the Basic Multilingual Plane. -/
def astralKey : String := String.singleton (Char.ofNat 0x10000)

def exoticObj : Json := .obj [(bmpKey, .null), (astralKey, .null)]

/-- An object whose keys are array-index strings, in sorted string order
("10" precedes "2" in both UTF-16 and UTF-8): `JSON.stringify` enumerates the
rebuilt object's index keys in ascending numeric order instead, emitting "2"
before "10". -/
def numKeysObj : Json := .obj [("10", .null), ("2", .null)]

/-- Claim C8, counterexample: in the canonical emission order keys are
**not** in UTF-8 byte order.  Two independent violations: `bmpKey` (U+FF5E)
precedes `astralKey` (U+10000) in UTF-8 byte order yet the JavaScript sort
puts the astral key first; and the array-index keys "10" < "2" in UTF-8 byte
order are emitted numerically as "2" before "10". -/
theorem canonical_keys_not_utf8_ordered :
    utf8Lt bmpKey astralKey = true ∧
    enumJson (sortJson exoticObj) = .obj [(astralKey, .null), (bmpKey, .null)] ∧
    canonKeysSortedBy utf8Le (enumJson (sortJson exoticObj)) = false ∧
    utf8Lt "10" "2" = true ∧
    enumJson (sortJson numKeysObj) = .obj [("2", .null), ("10", .null)] ∧
    canonKeysSortedBy utf8Le (enumJson (sortJson numKeysObj)) = false := by
  refine ⟨by decide, by decide, by decide, by decide, by decide, by decide⟩

/-- Claim C8, as amended: in the canonical encoding every map's keys are
emitted in JavaScript property-enumeration order of the sorted rebuild — keys
that are canonical array indices (decimal strings below `2^32 - 1`) first in
ascending numeric order, and all remaining keys after them in UTF-16
code-unit order (the JavaScript default string sort), never in insertion
order; for the non-index keys this UTF-16 order coincides with UTF-8 byte
order exactly when they stay inside the Basic Multilingual Plane. -/
theorem canonical_keys_enum_ordered :
    (∀ j : Json, enumCanonSorted (enumJson (sortJson j)) = true) ∧
    (∀ a b : String, bmpOnly a = true → bmpOnly b = true →
      jsLe a b = utf8Le a b) :=
  ⟨canonical_enum_sorted, fun _ _ ha hb => jsLe_eq_utf8Le_of_bmp ha hb⟩

/-- Witness instantiating `canonical_keys_enum_ordered`. -/
theorem canonical_keys_enum_ordered_witness :
    bmpOnly "energy" = true ∧ bmpOnly "id" = true ∧
    jsLe "energy" "id" = utf8Le "energy" "id" ∧
    enumCanonSorted (enumJson (sortJson numKeysObj)) = true ∧
    enumCanonSorted (enumJson (sortJson exoticObj)) = true :=
  ⟨by decide, by decide,
   canonical_keys_enum_ordered.2 "energy" "id" (by decide) (by decide),
   canonical_keys_enum_ordered.1 numKeysObj,
   canonical_keys_enum_ordered.1 exoticObj⟩

/-! ## Claim C9 -/

def wFrame : Frame := ⟨"frame", .null, none⟩

def wCollapse : Collapse := ⟨"collapse", .null, none⟩

def wSigned : SignedObject := ⟨"other", .null, none, none⟩

/-- Claim C9: for every result any of the verifiers returns normally, the
`valid` boolean is true exactly when the error list is empty (warnings are
carried in a separate field of the result and cannot make it invalid). -/
theorem valid_iff_no_errors (cm : CryptoModel) (pd : String → Option Int)
    (now : Int) (it : Intent) (fr : Frame) (oi : Option Intent)
    (cl : Collapse) (ofs : Option (List Frame)) (so : SignedObject) :
    (∀ r, verifyIntent cm pd now it = .ok r → (r.valid = true ↔ r.errors = [])) ∧
    (∀ r, verifyFrame cm fr oi = .ok r → (r.valid = true ↔ r.errors = [])) ∧
    (∀ r, verifyCollapse cm cl ofs = .ok r → (r.valid = true ↔ r.errors = [])) ∧
    (∀ r, verify cm pd now so = .ok r → (r.valid = true ↔ r.errors = [])) :=
  ⟨verifyIntent_resultOk cm pd now it, verifyFrame_resultOk cm fr oi,
   verifyCollapse_resultOk cm cl ofs, verify_resultOk cm pd now so⟩

/-- Witness instantiating `valid_iff_no_errors` on an intent that verifies
with no errors. -/
theorem valid_iff_no_errors_witness :
    verifyIntent cmSelf pdFixed 0 intentExpiring = .ok (success none) ∧
    ((success none).valid = true ↔ (success none).errors = []) :=
  ⟨by decide,
   (valid_iff_no_errors cmSelf pdFixed 0 intentExpiring wFrame none wCollapse
     none wSigned).1 (success none) (by decide)⟩

/-! ## Claim C10 -/

/-- Claim C10: `verifyIntent` always passes an authorized-signer set to
`verifySigset` (an empty JavaScript `Set` is truthy), so when
`policy.authorized_signers` is absent or empty and the threshold is at least
one, every signature is rejected as unauthorized and the intent is invalid,
no matter how many cryptographically valid signatures the sigset holds. -/
theorem emptyAuthorizedSigners_always_invalid (cm : CryptoModel)
    (pd : String → Option Int) (now : Int) (it : Intent) (ss : Sigset)
    (h1 : it.object_type = "intent")
    (h2 : it.body.truthy = true)
    (h3 : (it.body.get "id").truthy = true)
    (h4 : (it.body.get "version").truthy = true)
    (h5 : (it.body.get "policy").truthy = true)
    (h6 : (it.body.get "policy").get "authorized_signers" = Json.undefined ∨
      (it.body.get "policy").get "authorized_signers" = Json.arr [])
    (h7 : it.sigset = some ss)
    (h8 : 1 ≤ ss.threshold) :
    (verifyIntent cm pd now it).map VerificationResult.valid =
      Except.ok false := by
  have hba : buildAuthorized (it.body.get "policy") = .ok [] := by
    rcases h6 with h | h <;>
      simp [buildAuthorized, h, Json.truthy, pure, Except.pure, List.mapM,
        List.mapM.loop]
  obtain ⟨es, hvs, hne⟩ := verifySigset_empty_auth cm ss
    (extractBodyForSigning it.body) h8
  simp only [verifyIntent, h1, h2, h3, h4, h5, h7, hba, hvs, req,
    Bind.bind, Except.bind]
  simp [errIf, hne, pure, Except.pure, failure, Except.map]

/-- An intent without `authorized_signers`, carrying one signature the
concrete crypto model would accept. -/
def intentNoSigners : Intent :=
  ⟨"intent",
   .obj [("id", .str "x"), ("version", .str "1"), ("policy", .obj [])],
   some ⟨1, [sigA]⟩⟩

/-- Witness instantiating `emptyAuthorizedSigners_always_invalid`. -/
theorem emptyAuthorizedSigners_always_invalid_witness :
    intentNoSigners.sigset = some ⟨1, [sigA]⟩ ∧
    (verifyIntent cmConst pdNone 0 intentNoSigners).map
      VerificationResult.valid = Except.ok false :=
  ⟨rfl,
   emptyAuthorizedSigners_always_invalid cmConst pdNone 0 intentNoSigners
     ⟨1, [sigA]⟩ rfl (by decide) (by decide) (by decide) (by decide)
     (by decide) rfl (by decide)⟩

end OERCS
